import Mathlib

/-!
Verification of the codex-mcp-proxy core: the streaming JSON-RPC framer
(`src/parser.ts`), the interception and error-response helpers and the
request tracker (`src/handlers.ts`), the JSON-RPC type guards
(`src/types.ts`), and the proxy orchestration (`src/server.ts`).

Strings are modelled as `List Char`.  JSON values are modelled by the
inductive `Json`; numbers are modelled as integers (the repository's
protocol traffic uses integer ids and the claims do not involve float
formatting), and the JavaScript `JSON.stringify` / `JSON.parse` pair is
modelled by `stringify` / `parseJson` on this integer-subset of JSON:
`stringify` escapes the quote and backslash characters exactly as
`JSON.stringify` does (control characters, which `JSON.stringify` would
\u-escape, are outside the clean fragment `CleanJson` used to state the
serialization claims), and `parseJson` is a recursive-descent reader of
the same fragment, tolerating leading and trailing whitespace as
`JSON.parse` does.
-/

abbrev Str := List Char

inductive Json where
  | null
  | bool (b : Bool)
  | num (n : Int)
  | str (s : Str)
  | arr (xs : List Json)
  | obj (fs : List (Str × Json))

/-- Whitespace characters recognised by the model (the forms of whitespace
that occur in the proxy's traffic; `String.prototype.trimStart` strips these). -/
def isWsChar (c : Char) : Bool :=
  c = ' ' || c = '\n' || c = '\t' || c = '\r'

/-- Decimal digit characters, `'0'` through `'9'`. -/
def isDigitC (c : Char) : Bool :=
  48 ≤ c.toNat && c.toNat ≤ 57

/-- The decimal digit character for a value below ten. -/
def digitChar : Nat → Char
  | 0 => '0' | 1 => '1' | 2 => '2' | 3 => '3' | 4 => '4'
  | 5 => '5' | 6 => '6' | 7 => '7' | 8 => '8' | _ => '9'

/-- Numeric value of a decimal digit character. -/
def digitVal (c : Char) : Nat := c.toNat - 48

/-- Decimal rendering of a natural number, fuel-indexed so that it is
structurally recursive; `natToStr` supplies adequate fuel. -/
def natToStrAux : Nat → Nat → Str → Str
  | 0, _, acc => acc
  | fuel + 1, n, acc =>
    if n < 10 then digitChar n :: acc
    else natToStrAux fuel (n / 10) (digitChar (n % 10) :: acc)

/-- Decimal rendering of a natural number, as `JSON.stringify` renders it. -/
def natToStr (n : Nat) : Str := natToStrAux (n + 1) n []

/-- Decimal rendering of an integer, as `JSON.stringify` renders it. -/
def intToStr (n : Int) : Str :=
  if n < 0 then '-' :: natToStr n.natAbs else natToStr n.toNat

/-- String-character escaping as performed by `JSON.stringify`: the quote
and the backslash are escaped, every other modelled character is emitted
as itself. -/
def escapeChar (c : Char) : Str :=
  if c = '"' then ['\\', '"']
  else if c = '\\' then ['\\', '\\']
  else [c]

/-- Escape every character of a string body. -/
def escapeStr (s : Str) : Str := s.flatMap escapeChar

mutual

/-- Model of `JSON.stringify` on the integer-subset of JSON: compact
output, insertion-ordered object fields, quote/backslash escaping. -/
def stringify : Json → Str
  | .null => ['n', 'u', 'l', 'l']
  | .bool b => if b then ['t', 'r', 'u', 'e'] else ['f', 'a', 'l', 's', 'e']
  | .num n => intToStr n
  | .str s => '"' :: escapeStr s ++ ['"']
  | .arr xs => '[' :: stringifyList xs ++ [']']
  | .obj fs => '{' :: stringifyFields fs ++ ['}']

/-- Comma-separated rendering of array elements. -/
def stringifyList : List Json → Str
  | [] => []
  | [x] => stringify x
  | x :: y :: xs => stringify x ++ ',' :: stringifyList (y :: xs)

/-- Comma-separated rendering of object members. -/
def stringifyFields : List (Str × Json) → Str
  | [] => []
  | [(k, v)] => '"' :: escapeStr k ++ '"' :: ':' :: stringify v
  | (k, v) :: f :: fs =>
      '"' :: escapeStr k ++ '"' :: ':' :: stringify v ++ ',' :: stringifyFields (f :: fs)

end

/-- Last-wins field lookup, matching how a JavaScript object built by
`JSON.parse` resolves a repeated key. -/
def lookupField (k : Str) : List (Str × Json) → Option Json
  | [] => none
  | (k', v) :: rest =>
    match lookupField k rest with
    | some r => some r
    | none => if k' = k then some v else none

/-- Field access on a JSON value: only objects have fields (`'k' in obj`
is false for every array and primitive the parser can produce). -/
def Json.getField : Json → Str → Option Json
  | .obj fs, k => lookupField k fs
  | _, _ => none

/-- The JavaScript `'k' in obj` check on a parsed JSON value. -/
def Json.hasField : Json → Str → Bool
  | .obj fs, k => fs.any (fun p => p.1 = k)
  | _, _ => false

/-- Model of `isJsonRpcMessage` (src/types.ts): a non-null object whose
`jsonrpc` property is the string `"2.0"`. -/
def isJsonRpcMessage (j : Json) : Bool :=
  match j.getField "jsonrpc".data with
  | some (.str s) => s = "2.0".data
  | _ => false

/-- Model of `isJsonRpcRequest` (src/types.ts). -/
def isJsonRpcRequest (j : Json) : Bool :=
  isJsonRpcMessage j &&
    match j.getField "method".data with
    | some (.str _) => true
    | _ => false

/-- Model of `isJsonRpcNotification` (src/types.ts). -/
def isJsonRpcNotification (j : Json) : Bool :=
  isJsonRpcRequest j && !(j.hasField "id".data)

/-- Model of `isJsonRpcResponse` (src/types.ts). -/
def isJsonRpcResponse (j : Json) : Bool :=
  isJsonRpcMessage j && !(j.hasField "method".data) &&
    (j.hasField "result".data || j.hasField "error".data)

/-- Model of `isJsonRpcBatch` (src/types.ts): a non-empty array each of
whose elements passes `isJsonRpcMessage`. -/
def isJsonRpcBatch (j : Json) : Bool :=
  match j with
  | .arr xs => decide (0 < xs.length) && xs.all isJsonRpcMessage
  | _ => false

/-- Model of `serializeMessage` (src/parser.ts): `JSON.stringify` plus a
trailing newline. -/
def serializeMessage (j : Json) : Str := stringify j ++ ['\n']

mutual

/-- The clean fragment of the JSON model on which `stringify` agrees with
`JSON.stringify` byte for byte: no control characters inside strings or
keys (JavaScript would \u-escape them) and no repeated keys inside one
object (a JavaScript object cannot carry them). -/
def CleanJson : Json → Bool
  | .null => true
  | .bool _ => true
  | .num _ => true
  | .str s => s.all (fun c => 32 ≤ c.toNat)
  | .arr xs => CleanJsonList xs
  | .obj fs =>
      decide (fs.map Prod.fst).Nodup &&
        (fs.map Prod.fst).all (fun k => k.all (fun c => 32 ≤ c.toNat)) &&
        CleanJsonFields fs

/-- Cleanliness of every array element. -/
def CleanJsonList : List Json → Bool
  | [] => true
  | x :: xs => CleanJson x && CleanJsonList xs

/-- Cleanliness of every member value. -/
def CleanJsonFields : List (Str × Json) → Bool
  | [] => true
  | (_, v) :: fs => CleanJson v && CleanJsonFields fs

end

/-- A wire value that the framer classifies as a single protocol message:
shaped as a Request or a Response, and inside the clean fragment on which
the serializer model is exact. -/
def ValidMsg (j : Json) : Prop :=
  (isJsonRpcRequest j || isJsonRpcResponse j) = true ∧ CleanJson j = true

/-- Decode one escape sequence character, as `JSON.parse` does on the
escapes the model covers (`\u` hex escapes are outside the fragment). -/
def decodeEscape (c : Char) : Option Char :=
  if c = '"' then some '"'
  else if c = '\\' then some '\\'
  else if c = '/' then some '/'
  else if c = 'n' then some '\n'
  else if c = 't' then some '\t'
  else if c = 'r' then some '\r'
  else none

/-- Read a string body up to and past its closing unescaped quote,
returning the decoded content and the rest of the input. -/
def parseStrBody : Str → Option (Str × Str)
  | [] => none
  | c :: r =>
    if c = '"' then some ([], r)
    else if c = '\\' then
      match r with
      | [] => none
      | e :: r' =>
        match decodeEscape e with
        | none => none
        | some d => (parseStrBody r').map (fun p => (d :: p.1, p.2))
    else (parseStrBody r).map (fun p => (c :: p.1, p.2))

/-- Greedy decimal-digit scan folding the value left to right, as a
JavaScript number scanner consumes an integer literal. -/
def parseDigitsAux (acc : Nat) : Str → Nat × Str
  | [] => (acc, [])
  | c :: cs =>
    if isDigitC c then parseDigitsAux (10 * acc + digitVal c) cs
    else (acc, c :: cs)

/-- Whether the first character of the input is the given one. -/
def headIs (c : Char) : Str → Bool
  | c' :: _ => c' = c
  | [] => false

/-- The input without its first character. -/
def strTail : Str → Str
  | [] => []
  | _ :: t => t

/-- Read a negative number body (the characters after a leading minus). -/
def parseNeg : Str → Option (Json × Str)
  | [] => none
  | c :: cs =>
    if isDigitC c then
      some (.num (-((parseDigitsAux 0 (c :: cs)).1 : Int)), (parseDigitsAux 0 (c :: cs)).2)
    else none

mutual

/-- Recursive-descent reader for one JSON value of the modelled fragment,
fuel-indexed for structural recursion (`parseJson` supplies adequate fuel). -/
def parseVal : Nat → Str → Option (Json × Str)
  | 0, _ => none
  | _ + 1, [] => none
  | fuel + 1, c :: cs =>
    if c = '{' then
      if headIs '}' cs then some (.obj [], strTail cs)
      else (parseMembers fuel cs).map (fun p => (Json.obj p.1, p.2))
    else if c = '[' then
      if headIs ']' cs then some (.arr [], strTail cs)
      else (parseElems fuel cs).map (fun p => (Json.arr p.1, p.2))
    else if c = '"' then (parseStrBody cs).map (fun p => (Json.str p.1, p.2))
    else if c = 'n' then
      if cs.take 3 = ['u', 'l', 'l'] then some (.null, cs.drop 3) else none
    else if c = 't' then
      if cs.take 3 = ['r', 'u', 'e'] then some (.bool true, cs.drop 3) else none
    else if c = 'f' then
      if cs.take 4 = ['a', 'l', 's', 'e'] then some (.bool false, cs.drop 4) else none
    else if c = '-' then parseNeg cs
    else if isDigitC c then
      some (.num ((parseDigitsAux 0 (c :: cs)).1 : Int), (parseDigitsAux 0 (c :: cs)).2)
    else none

/-- Read the non-empty member list of an object, past its closing brace. -/
def parseMembers : Nat → Str → Option (List (Str × Json) × Str)
  | 0, _ => none
  | fuel + 1, cs =>
    if headIs '"' cs then
      (parseStrBody (strTail cs)).bind (fun pk =>
        if headIs ':' pk.2 then
          (parseVal fuel (strTail pk.2)).bind (fun pv =>
            if headIs ',' pv.2 then
              (parseMembers fuel (strTail pv.2)).map (fun p => ((pk.1, pv.1) :: p.1, p.2))
            else if headIs '}' pv.2 then some ([(pk.1, pv.1)], strTail pv.2)
            else none)
        else none)
    else none

/-- Read the non-empty element list of an array, past its closing bracket. -/
def parseElems : Nat → Str → Option (List Json × Str)
  | 0, _ => none
  | fuel + 1, cs =>
    (parseVal fuel cs).bind (fun pv =>
      if headIs ',' pv.2 then (parseElems fuel (strTail pv.2)).map (fun p => (pv.1 :: p.1, p.2))
      else if headIs ']' pv.2 then some ([pv.1], strTail pv.2)
      else none)

end

/-- Model of `JSON.parse` on the integer-subset of JSON: skip leading
whitespace, read exactly one value, allow only trailing whitespace. -/
def parseJson (s : Str) : Option Json :=
  let t := s.dropWhile isWsChar
  match parseVal (2 * t.length + 2) t with
  | none => none
  | some (v, r) => if r.dropWhile isWsChar = [] then some v else none

mutual

/-- Fuel sufficient for `parseVal` to read this value back. -/
def fuelNeedV : Json → Nat
  | .null => 1
  | .bool _ => 1
  | .num _ => 1
  | .str _ => 1
  | .arr [] => 1
  | .arr (x :: xs) => 1 + fuelNeedE (x :: xs)
  | .obj [] => 1
  | .obj (f :: fs) => 1 + fuelNeedM (f :: fs)

/-- Fuel sufficient for `parseElems` to read this element list back. -/
def fuelNeedE : List Json → Nat
  | [] => 1
  | [x] => 1 + fuelNeedV x
  | x :: y :: xs => 1 + max (fuelNeedV x) (fuelNeedE (y :: xs))

/-- Fuel sufficient for `parseMembers` to read this member list back. -/
def fuelNeedM : List (Str × Json) → Nat
  | [] => 1
  | [(_, v)] => 1 + fuelNeedV v
  | (_, v) :: f :: fs => 1 + max (fuelNeedV v) (fuelNeedM (f :: fs))

end

/-- The scan loop of `MessageParser.findJsonEnd` (src/parser.ts), one
recursive call per character, carrying the loop's four state variables. -/
def findJsonEndAux (oc cc : Char) : Str → Nat → Int → Bool → Bool → Bool → Option Nat
  | [], _, _, _, _, _ => none
  | c :: cs, i, depth, inString, escape, started =>
    if escape then
      findJsonEndAux oc cc cs (i + 1) depth inString false started
    else if c = '\\' && inString then
      findJsonEndAux oc cc cs (i + 1) depth inString true started
    else if c = '"' then
      findJsonEndAux oc cc cs (i + 1) depth (!inString) false started
    else if inString then
      findJsonEndAux oc cc cs (i + 1) depth inString false started
    else if c = oc then
      findJsonEndAux oc cc cs (i + 1) (depth + 1) inString false true
    else if c = cc then
      if started && depth - 1 == 0 then some i
      else findJsonEndAux oc cc cs (i + 1) (depth - 1) inString false started
    else
      findJsonEndAux oc cc cs (i + 1) depth inString false started

/-- Model of `MessageParser.findJsonEnd`: index of the bracket closing the
first balanced span, or `none` (the code's `-1`) when none is complete. -/
def findJsonEnd (s : Str) (oc cc : Char) : Option Nat :=
  findJsonEndAux oc cc s 0 0 false false false

/-- One extracted parse result: a single message or a batch, the code's
`ParseResult` (src/parser.ts). -/
inductive ExtractResult where
  | msg (j : Json)
  | batch (xs : List Json)

/-- Whether the buffer's whitespace-trimmed form starts with `{`
(the code's `trimmed.startsWith('{')`). -/
def objectStartB (buf : Str) : Bool :=
  match buf.dropWhile isWsChar with
  | '{' :: _ => true
  | _ => false

/-- Whether the buffer's whitespace-trimmed form starts with `[`
(the code's `trimmed.startsWith('[')` and the later `isArray` check). -/
def arrayStartB (buf : Str) : Bool :=
  match buf.dropWhile isWsChar with
  | '[' :: _ => true
  | _ => false

/-- The end-scan chosen by `tryExtractMessage`: `findJsonArrayEnd` when the
trimmed buffer starts with `[`, `findJsonObjectEnd` otherwise. -/
def chosenEnd (buf : Str) : Option Nat :=
  if arrayStartB buf then findJsonEnd buf '[' ']' else findJsonEnd buf '{' '}'

/-- The tail of `MessageParser.tryExtractMessage` after the noise-prefix
handling: pick the bracket kind, scan for the end, slice the candidate,
decode and shape-check it.  Returns the code's return value paired with
the buffer the code leaves behind. -/
def extractFrom (buf : Str) : Option ExtractResult × Str :=
  match chosenEnd buf with
  | none => (none, buf)
  | some e =>
    match parseJson (buf.take (e + 1)) with
    | none => (none, buf.drop (e + 1))
    | some parsed =>
      match parsed with
      | .arr xs =>
        if isJsonRpcBatch (.arr xs) then (some (.batch xs), buf.drop (e + 1))
        else (none, buf.drop (e + 1))
      | _ =>
        if isJsonRpcRequest parsed || isJsonRpcResponse parsed then
          (some (.msg parsed), buf.drop (e + 1))
        else (none, buf.drop (e + 1))

/-- Model of `MessageParser.tryExtractMessage` (src/parser.ts): the
noise-prefix handling (discard everything before the first `{` or `[`, or
the whole buffer when neither occurs), then `extractFrom`. -/
def tryExtractMessage (buf : Str) : Option ExtractResult × Str :=
  if !objectStartB buf && !arrayStartB buf then
    match buf.findIdx? (fun c => c = '{'), buf.findIdx? (fun c => c = '[') with
    | none, none => (none, [])
    | none, some a => extractFrom (buf.drop a)
    | some o, none => extractFrom (buf.drop o)
    | some o, some a => extractFrom (buf.drop (min o a))
  else
    extractFrom buf

/-- The index the noise-prefix handling of `tryExtractMessage` drops to
when the trimmed buffer starts with neither bracket: the position of the
first `{` or `[` (the smaller of the two `indexOf` results when both
occur), or `none` when neither bracket occurs anywhere. -/
def minBracketIdx (buf : Str) : Option Nat :=
  match buf.findIdx? (fun c => c = '{'), buf.findIdx? (fun c => c = '[') with
  | none, none => none
  | none, some a => some a
  | some o, none => some o
  | some o, some a => some (min o a)

/-- Batch expansion as performed by `parse`'s `messages.push(...)` calls. -/
def ExtractResult.expand : ExtractResult → List Json
  | .msg j => [j]
  | .batch xs => xs

/-- The `while (true)` extraction loop of `MessageParser.parse`,
fuel-indexed for structural recursion; each successful extraction strictly
shrinks the buffer, so `MessageParser.parse` supplies adequate fuel. -/
def parseSteps : Nat → Str → List Json × Str
  | 0, buf => ([], buf)
  | fuel + 1, buf =>
    match tryExtractMessage buf with
    | (none, buf') => ([], buf')
    | (some r, buf') =>
      let rec' := parseSteps fuel buf'
      (r.expand ++ rec'.1, rec'.2)

/-- The extraction loop run to completion on a buffer. -/
def parseLoop (buf : Str) : List Json × Str := parseSteps (buf.length + 1) buf

namespace MessageParser

/-- Model of `MessageParser.parse` (src/parser.ts): append the chunk to
the buffer, then extract complete messages until none remains.  The
instance field `this.buffer` is passed and returned explicitly. -/
def parse (buffer chunk : Str) : List Json × Str := parseLoop (buffer ++ chunk)

/-- Model of `MessageParser.clear`. -/
def clear (_buffer : Str) : Str := []

end MessageParser

/-- A JSON-RPC id: a string or a number (src/types.ts `id?: string | number`). -/
inductive RpcId where
  | str (s : Str)
  | num (n : Int)
deriving DecidableEq

/-- Typed view of `JsonRpcRequest` (src/types.ts): `id` is `none` when the
`id` property is absent. -/
structure RpcRequest where
  id : Option RpcId
  method : Str
  params : Option Json

/-- The structured `data` attached to a synthesized `DetailedError`
(src/handlers.ts). -/
structure ErrorData where
  detail : Str
  suggestion : Str
  retryable : Bool
  method : Option Str

/-- Typed view of `JsonRpcError` for synthesized responses. -/
structure RpcErrorObj where
  code : Int
  message : Str
  data : Option ErrorData

/-- Typed view of `JsonRpcResponse` (src/types.ts): `id` is `none` when the
`id` property is absent or `null` (the tracker treats both identically). -/
structure RpcResponse where
  id : Option RpcId
  result : Option Json
  error : Option RpcErrorObj

/-- Model of `isNotification` (src/handlers.ts), which delegates to
`isJsonRpcNotification`: true exactly when the request has no id. -/
def isNotification (r : RpcRequest) : Bool := r.id.isNone

/-- The `McpListResourcesResult` value `\x7bresources: []\x7d` built by
`createEmptyResourcesResponse`. -/
def emptyResourcesResult : Json := .obj [("resources".data, .arr [])]

/-- Model of `createEmptyResourcesResponse` (src/handlers.ts). -/
def createEmptyResourcesResponse (r : RpcRequest) : Option RpcResponse :=
  if isNotification r then none
  else some { id := r.id, result := some emptyResourcesResult, error := none }

/-- Model of `createResourceNotFoundResponse` (src/handlers.ts). -/
def createResourceNotFoundResponse (r : RpcRequest) : Option RpcResponse :=
  if isNotification r then none
  else some { id := r.id, result := none,
              error := some { code := -32002, message := "Resource not found".data,
                              data := none } }

namespace ErrorCodes

/-- Error code constants (src/handlers.ts `ErrorCodes`). -/
def UPSTREAM_UNAVAILABLE : Int := -32603

/-- Error code for a lost upstream connection. -/
def UPSTREAM_CONNECTION_LOST : Int := -32603

/-- Error code for an upstream timeout. -/
def UPSTREAM_TIMEOUT : Int := -32603

/-- Error code for a missing resource. -/
def RESOURCE_NOT_FOUND : Int := -32002

/-- Error code for invalid parameters. -/
def INVALID_PARAMS : Int := -32602

end ErrorCodes

/-- One entry of the `ErrorMessages` table (src/handlers.ts). -/
structure ErrorMessageInfo where
  message : Str
  detail : Str
  suggestion : Str
  retryable : Bool

namespace ErrorMessages

/-- The `UPSTREAM_UNAVAILABLE` entry of `ErrorMessages`. -/
def UPSTREAM_UNAVAILABLE : ErrorMessageInfo :=
  { message := "Codex service is not available".data,
    detail := "The Codex backend process is not running or failed to start.".data,
    suggestion := "Wait a few seconds and retry. If the problem persists, restart the MCP server.".data,
    retryable := true }

/-- The `UPSTREAM_CONNECTION_LOST` entry of `ErrorMessages`. -/
def UPSTREAM_CONNECTION_LOST : ErrorMessageInfo :=
  { message := "Connection to Codex service was lost".data,
    detail := "The Codex backend process terminated unexpectedly.".data,
    suggestion := "Restart the MCP server and retry your request.".data,
    retryable := false }

/-- The `UPSTREAM_SEND_FAILED` entry of `ErrorMessages`. -/
def UPSTREAM_SEND_FAILED : ErrorMessageInfo :=
  { message := "Failed to send request to Codex".data,
    detail := "Unable to communicate with the Codex backend.".data,
    suggestion := "This is usually a transient error. Wait 2-3 seconds and retry.".data,
    retryable := true }

end ErrorMessages

/-- Model of `createErrorResponse` (src/handlers.ts): `none` for a
notification; otherwise an error response carrying the request's id, and —
when `data` is supplied — the detail/suggestion/retryable fields plus the
original request's method. -/
def createErrorResponse (r : RpcRequest) (code : Int) (message : Str)
    (data : Option (Str × Str × Bool)) : Option RpcResponse :=
  if isNotification r then none
  else
    let error : RpcErrorObj :=
      match data with
      | some (detail, suggestion, retryable) =>
        { code := code, message := message,
          data := some { detail := detail, suggestion := suggestion,
                         retryable := retryable, method := some r.method } }
      | none => { code := code, message := message, data := none }
    some { id := r.id, result := none, error := some error }

/-- Model of `createUpstreamUnavailableError` (src/handlers.ts). -/
def createUpstreamUnavailableError (r : RpcRequest) : Option RpcResponse :=
  createErrorResponse r ErrorCodes.UPSTREAM_UNAVAILABLE
    ErrorMessages.UPSTREAM_UNAVAILABLE.message
    (some (ErrorMessages.UPSTREAM_UNAVAILABLE.detail,
           ErrorMessages.UPSTREAM_UNAVAILABLE.suggestion,
           ErrorMessages.UPSTREAM_UNAVAILABLE.retryable))

/-- Model of `createUpstreamConnectionLostError` (src/handlers.ts). -/
def createUpstreamConnectionLostError (r : RpcRequest) : Option RpcResponse :=
  createErrorResponse r ErrorCodes.UPSTREAM_CONNECTION_LOST
    ErrorMessages.UPSTREAM_CONNECTION_LOST.message
    (some (ErrorMessages.UPSTREAM_CONNECTION_LOST.detail,
           ErrorMessages.UPSTREAM_CONNECTION_LOST.suggestion,
           ErrorMessages.UPSTREAM_CONNECTION_LOST.retryable))

/-- Model of `createUpstreamSendFailedError` (src/handlers.ts); note the
source passes `ErrorCodes.UPSTREAM_UNAVAILABLE` here. -/
def createUpstreamSendFailedError (r : RpcRequest) : Option RpcResponse :=
  createErrorResponse r ErrorCodes.UPSTREAM_UNAVAILABLE
    ErrorMessages.UPSTREAM_SEND_FAILED.message
    (some (ErrorMessages.UPSTREAM_SEND_FAILED.detail,
           ErrorMessages.UPSTREAM_SEND_FAILED.suggestion,
           ErrorMessages.UPSTREAM_SEND_FAILED.retryable))

/-- Model of `handleRequest` (src/handlers.ts): answer the two intercepted
methods locally, return `none` (the code's `null`) for everything else. -/
def handleRequest (r : RpcRequest) : Option RpcResponse :=
  if r.method = "resources/list".data then createEmptyResourcesResponse r
  else if r.method = "resources/read".data then createResourceNotFoundResponse r
  else none

/-- One entry of `ENHANCED_TOOL_DESCRIPTIONS` (src/handlers.ts). -/
structure ToolEnhancement where
  description : Str
  inputSchema : Option Json

/-- The `codex` entry's replacement description (src/handlers.ts). -/
def codexDescription : Str :=
  ("Run a Codex AI coding session for code analysis, review, debugging, or modifications.\n**Quick start:** `\x7b\"prompt\": \"Review this code for bugs and security issues\"\x7d`\n**With context:** `\x7b\"prompt\": \"Fix the bug in auth.ts\", \"cwd\": \"C:/projects/myapp\"\x7d`\n**Best practices:**\n  • Always specify `cwd` when working with a specific project\n  • Use `sandbox: \"read-only\"` for analysis/review tasks\n  • Use `sandbox: \"workspace-write\"` for code modifications\n**Workflow:** codex → (get threadId) → codex-reply for follow-ups.\nUse when: \"review code\", \"fix bug\", \"explain code\", \"refactor\", \"write tests\", \"审查代码\", \"修复bug\", \"解释代码\", \"重构\", \"写测试\".").data

/-- The `codex` entry's replacement input schema (src/handlers.ts). -/
def codexInputSchema : Json :=
  .obj [("type".data, .str "object".data),
        ("properties".data, .obj
          [("prompt".data, .obj
             [("type".data, .str "string".data),
              ("description".data,
               .str "The task or question. Be specific - include file paths when relevant.".data)]),
           ("cwd".data, .obj
             [("type".data, .str "string".data),
              ("description".data,
               .str "Working directory (RECOMMENDED). Example: \"C:/projects/myapp\"".data)]),
           ("model".data, .obj
             [("type".data, .str "string".data),
              ("description".data, .str "Model override. Example: \"gpt-5.2-codex\"".data)]),
           ("sandbox".data, .obj
             [("type".data, .str "string".data),
              ("enum".data, .arr [.str "read-only".data, .str "workspace-write".data,
                                  .str "danger-full-access".data]),
              ("description".data,
               .str "Permission level. read-only=analysis, workspace-write=modifications.".data)]),
           ("approval-policy".data, .obj
             [("type".data, .str "string".data),
              ("enum".data, .arr [.str "untrusted".data, .str "on-failure".data,
                                  .str "on-request".data, .str "never".data]),
              ("description".data, .str "Shell command approval policy.".data)])]),
        ("required".data, .arr [.str "prompt".data])]

/-- The `codex-reply` entry's replacement description (src/handlers.ts). -/
def codexReplyDescription : Str :=
  ("Continue an existing Codex conversation with follow-up questions or instructions.\n**Example:** `\x7b\"threadId\": \"thread_abc123\", \"prompt\": \"Also add unit tests\"\x7d`\n**When to use:**\n  • Ask follow-up questions about analysis\n  • Request additional changes after initial fix\n  • Clarify or refine instructions\n**Important:** threadId is returned from the initial `codex` call.\nUse when: \"continue\", \"follow up\", \"also do\", \"继续\", \"追问\", \"还要\".").data

/-- The `codex-reply` entry's replacement input schema (src/handlers.ts). -/
def codexReplyInputSchema : Json :=
  .obj [("type".data, .str "object".data),
        ("properties".data, .obj
          [("threadId".data, .obj
             [("type".data, .str "string".data),
              ("description".data, .str "Thread ID from previous codex call (REQUIRED).".data)]),
           ("prompt".data, .obj
             [("type".data, .str "string".data),
              ("description".data, .str "Follow-up message or instruction.".data)])]),
        ("required".data, .arr [.str "threadId".data, .str "prompt".data])]

/-- Model of the `ENHANCED_TOOL_DESCRIPTIONS` record (src/handlers.ts), as
a lookup by tool name. -/
def ENHANCED_TOOL_DESCRIPTIONS (name : Str) : Option ToolEnhancement :=
  if name = "codex".data then
    some { description := codexDescription, inputSchema := some codexInputSchema }
  else if name = "codex-reply".data then
    some { description := codexReplyDescription, inputSchema := some codexReplyInputSchema }
  else none

/-- JavaScript truthiness of a JSON value. -/
def jsTruthy : Json → Bool
  | .null => false
  | .bool b => b
  | .num n => decide (n ≠ 0)
  | .str s => decide (s ≠ [])
  | .arr _ => true
  | .obj _ => true

/-- Whether `typeof v === 'object'` holds for a JSON value (arrays and
`null` included, as in JavaScript). -/
def jsTypeofObject : Json → Bool
  | .obj _ => true
  | .arr _ => true
  | .null => true
  | _ => false

/-- JavaScript object-spread override `\x7b...obj, k: v\x7d`: replace the
value at an existing key in place, append the key otherwise. -/
def jsSetField (j : Json) (k : Str) (v : Json) : Json :=
  match j with
  | .obj fs =>
    if fs.any (fun p => p.1 = k) then .obj (fs.map fun p => if p.1 = k then (k, v) else p)
    else .obj (fs ++ [(k, v)])
  | _ => j

/-- The per-tool mapping body of `enhanceToolsListResponse`: when the
tool's name is in the enhancement table, override its description and
input schema; otherwise return it untouched. -/
def enhanceTool (tool : Json) : Json :=
  match tool.getField "name".data with
  | some (.str s) =>
    match ENHANCED_TOOL_DESCRIPTIONS s with
    | some e =>
      let withDesc := jsSetField tool "description".data (.str e.description)
      match e.inputSchema with
      | some sch => jsSetField withDesc "inputSchema".data sch
      | none =>
        match tool.getField "inputSchema".data with
        | some old => jsSetField withDesc "inputSchema".data old
        | none => withDesc
    | none => tool
  | _ => tool

/-- Model of `enhanceToolsListResponse` (src/handlers.ts): identity unless
the response carries an object result with a `tools` array, in which case
each tool is passed through `enhanceTool`. -/
def enhanceToolsListResponse (resp : RpcResponse) : RpcResponse :=
  match resp.result with
  | none => resp
  | some result =>
    if !(jsTruthy result && jsTypeofObject result) then resp
    else
      match result.getField "tools".data with
      | some (.arr tools) =>
        { resp with result := some (jsSetField result "tools".data (.arr (tools.map enhanceTool))) }
      | _ => resp

/-- Model of `shouldEnhanceResponse` (src/handlers.ts). -/
def shouldEnhanceResponse (method : Str) : Bool := method = "tools/list".data

/-- One tracked entry (src/handlers.ts `TrackedRequest`); the timestamp is
the `Date.now()` value at `track` time. -/
structure TrackedRequest where
  request : RpcRequest
  timestamp : Int

/-- Model of the `RequestTracker` state (src/handlers.ts): the `pending`
`Map` as an insertion-ordered association list, plus the two configured
bounds. -/
structure RequestTracker where
  pending : List (RpcId × TrackedRequest)
  ttlMs : Int
  maxSize : Nat

/-- A `RequestTracker` with the constructor's defaults: 60000 ms TTL and
10000 entries capacity. -/
def RequestTracker.default : RequestTracker :=
  { pending := [], ttlMs := 60000, maxSize := 10000 }

/-- JavaScript `Map.prototype.set`: overwrite in place on a key hit,
append otherwise. -/
def mapSet (m : List (RpcId × TrackedRequest)) (k : RpcId) (v : TrackedRequest) :
    List (RpcId × TrackedRequest) :=
  if m.any (fun p => p.1 = k) then m.map (fun p => if p.1 = k then (k, v) else p)
  else m ++ [(k, v)]

/-- Model of `RequestTracker.cleanup` (src/handlers.ts): delete every entry
strictly older than the TTL, returning how many were deleted. -/
def RequestTracker.cleanup (t : RequestTracker) (now : Int) : Nat × RequestTracker :=
  ((t.pending.filter (fun p => decide (now - p.2.timestamp > t.ttlMs))).length,
   { t with pending := t.pending.filter (fun p => !decide (now - p.2.timestamp > t.ttlMs)) })

/-- Model of `RequestTracker.track` (src/handlers.ts): no-op without an id;
otherwise run a cleanup first when the map has reached capacity, then
insert (or overwrite) keyed by the id with the current time. -/
def RequestTracker.track (t : RequestTracker) (now : Int) (r : RpcRequest) : RequestTracker :=
  match r.id with
  | none => t
  | some id =>
    let t := if t.pending.length ≥ t.maxSize then (t.cleanup now).2 else t
    { t with pending := mapSet t.pending id { request := r, timestamp := now } }

/-- Model of `RequestTracker.complete` (src/handlers.ts): `none` for an
absent or null id; otherwise remove the entry and return its request. -/
def RequestTracker.complete (t : RequestTracker) (id : Option RpcId) :
    Option RpcRequest × RequestTracker :=
  match id with
  | none => (none, t)
  | some i =>
    let tracked := (t.pending.find? (fun p => p.1 = i)).map (·.2)
    (tracked.map (·.request),
     { t with pending := t.pending.filter (fun p => !decide (p.1 = i)) })

/-- Model of `RequestTracker.size`. -/
def RequestTracker.size (t : RequestTracker) : Nat := t.pending.length

/-- Model of `RequestTracker.has` (src/handlers.ts). -/
def RequestTracker.has (t : RequestTracker) (id : RpcId) : Bool :=
  t.pending.any (fun p => p.1 = id)

/-- Model of `RequestTracker.clear` (src/handlers.ts). -/
def RequestTracker.clearAll (t : RequestTracker) : RequestTracker :=
  { t with pending := [] }

/-- An observable action of the proxy toward one of its two channels. -/
inductive Effect where
  | sendToClient (r : RpcResponse)
  | writeToCodex (r : RpcRequest)

/-- The proxy state consulted by `handleClientRequest` (src/server.ts):
the `upstreamAvailable` flag, whether the backend's stdin is writable
(`stdin && stdin.writable && !stdin.writableEnded`), and the tracker. -/
structure ProxyState where
  upstreamAvailable : Bool
  stdinWritable : Bool
  requestTracker : RequestTracker

/-- Model of `CodexMcpProxy.forwardToCodex` (src/server.ts): with an
unwritable channel, synthesize the connection-lost error (sent only when
non-null); otherwise write the serialized request to the backend.  The
asynchronous write-failure callback is outside this synchronous model. -/
def forwardToCodex (st : ProxyState) (r : RpcRequest) : List Effect :=
  if !st.stdinWritable then
    match createUpstreamConnectionLostError r with
    | some e => [.sendToClient e]
    | none => []
  else [.writeToCodex r]

/-- Model of `CodexMcpProxy.handleClientRequest` (src/server.ts): try the
interception, then the availability gate, then track (non-notifications
only) and forward. -/
def handleClientRequest (st : ProxyState) (now : Int) (r : RpcRequest) :
    ProxyState × List Effect :=
  match handleRequest r with
  | some interceptedResponse => (st, [.sendToClient interceptedResponse])
  | none =>
    if !st.upstreamAvailable then
      match createUpstreamUnavailableError r with
      | some e => (st, [.sendToClient e])
      | none => (st, [])
    else
      let st' :=
        if !isNotification r then
          { st with requestTracker := st.requestTracker.track now r }
        else st
      (st', forwardToCodex st' r)

/-- Model of `CodexMcpProxy.handleCodexResponse` (src/server.ts): complete
the tracked request, enhance the response only when the original request
was found and its method calls for it, then send to the client. -/
def handleCodexResponse (st : ProxyState) (resp : RpcResponse) :
    ProxyState × List Effect :=
  let completed := st.requestTracker.complete resp.id
  let finalResponse :=
    match completed.1 with
    | some originalRequest =>
      if shouldEnhanceResponse originalRequest.method then enhanceToolsListResponse resp
      else resp
    | none => resp
  ({ st with requestTracker := completed.2 }, [.sendToClient finalResponse])

/-- Concatenated serialization of a message sequence: the byte stream a
well-behaved peer writes. -/
def flatSer (ms : List Json) : Str := ms.flatMap serializeMessage

/-- Feed a list of chunks through one `MessageParser` in order, starting
from the given buffer: all emitted messages in order, and the final buffer. -/
def feedChunks : Str → List Str → List Json × Str
  | buf, [] => ([], buf)
  | buf, c :: cs =>
    let r := MessageParser.parse buf c
    let rest := feedChunks r.2 cs
    (r.1 ++ rest.1, rest.2)

/-- A string consisting of whitespace only. -/
def wsOnly (s : Str) : Bool := s.all isWsChar

/-- The residue a well-behaved stream can leave in the framer buffer after
whitespace is set aside: nothing, or a proper prefix of the serialization
of the next message still to arrive. -/
def PartialBuf (p : Str) (rest : List Json) : Prop :=
  p = [] ∨ ∃ m ms c t', rest = m :: ms ∧ p ++ (c :: t') = stringify m

/-- A concrete request used to exercise the framer on a split stream. -/
def cbiMsg : Json :=
  .obj [("jsonrpc".data, .str "2.0".data), ("method".data, .str "ping".data)]

/-- The serialization of `cbiMsg`, cut in two mid-message. -/
def cbiChunks : List Str := [(flatSer [cbiMsg]).take 10, (flatSer [cbiMsg]).drop 10]

theorem extractFrom_some_length {buf b' : Str} {r : ExtractResult}
    (h : extractFrom buf = (some r, b')) : b'.length < buf.length := by
  unfold extractFrom at h
  rcases hend : chosenEnd buf with _ | e
  · rw [hend] at h; exact absurd (congrArg Prod.fst h) (by simp)
  · rw [hend] at h
    dsimp only at h
    have hlen : 0 < buf.length := by
      rcases buf with _ | ⟨a, l⟩
      · simp [chosenEnd, findJsonEnd, findJsonEndAux, arrayStartB] at hend
      · simp
    have hb' : b' = buf.drop (e + 1) := by
      rcases hj : parseJson (buf.take (e + 1)) with _ | parsed
      · rw [hj] at h; exact absurd (congrArg Prod.fst h) (by simp)
      · rw [hj] at h
        dsimp only at h
        cases parsed <;> simp only at h <;> split at h <;>
          exact (Prod.mk.injEq _ _ _ _ ▸ h).2.symm
    subst hb'
    simp only [List.length_drop]
    omega

theorem tryExtract_some_length {buf b' : Str} {r : ExtractResult}
    (h : tryExtractMessage buf = (some r, b')) : b'.length < buf.length := by
  unfold tryExtractMessage at h
  split at h
  · split at h
    · exact absurd (congrArg Prod.fst h) (by simp)
    all_goals
      refine lt_of_lt_of_le (extractFrom_some_length h) ?_
      simp [List.length_drop]
  · exact extractFrom_some_length h

theorem parseSteps_succ (f : Nat) (b : Str) :
    parseSteps (f + 1) b =
      match tryExtractMessage b with
      | (none, buf') => ([], buf')
      | (some r, buf') => (r.expand ++ (parseSteps f buf').1, (parseSteps f buf').2) := rfl

theorem parseSteps_congr : ∀ (f₁ f₂ : Nat) (b : Str), b.length < f₁ → b.length < f₂ →
    parseSteps f₁ b = parseSteps f₂ b := by
  intro f₁
  induction f₁ with
  | zero => intro f₂ b h₁ h₂; omega
  | succ f ih =>
    intro f₂ b h₁ h₂
    cases f₂ with
    | zero => omega
    | succ f' =>
      rw [parseSteps_succ, parseSteps_succ]
      rcases hx : tryExtractMessage b with ⟨_ | r, b'⟩
      · rfl
      · have hlt := tryExtract_some_length hx
        dsimp only
        rw [ih f' b' (by omega) (by omega)]

theorem parseLoop_none {b b' : Str} (h : tryExtractMessage b = (none, b')) :
    parseLoop b = ([], b') := by
  unfold parseLoop
  rw [parseSteps_succ, h]

theorem parseLoop_some {b b' : Str} {r : ExtractResult}
    (h : tryExtractMessage b = (some r, b')) :
    parseLoop b = (r.expand ++ (parseLoop b').1, (parseLoop b').2) := by
  unfold parseLoop
  rw [parseSteps_succ, h]
  dsimp only
  rw [parseSteps_congr b.length (b'.length + 1) b' (tryExtract_some_length h) (Nat.lt_succ_self _)]

/-- C4: interception exactness of `handleRequest` — for a request carrying
an id, `resources/list` is answered by an empty-resources result carrying
the same id, `resources/read` by the code −32002 "Resource not found"
error carrying the same id, and every other method is not intercepted. -/
theorem handleRequest_interception_exact (r : RpcRequest) (i : RpcId) (h : r.id = some i) :
    (r.method = "resources/list".data →
      handleRequest r = some { id := some i, result := some emptyResourcesResult, error := none }) ∧
    (r.method = "resources/read".data →
      handleRequest r =
        some { id := some i, result := none,
               error := some { code := -32002, message := "Resource not found".data,
                               data := none } }) ∧
    (r.method ≠ "resources/list".data → r.method ≠ "resources/read".data →
      handleRequest r = none) := by
  have hnot : isNotification r = false := by simp [isNotification, h]
  refine ⟨fun hm => ?_, fun hm => ?_, fun h₁ h₂ => ?_⟩
  · simp [handleRequest, hm, createEmptyResourcesResponse, hnot, h]
  · have hne : ¬("resources/read".data = "resources/list".data) := by decide
    simp [handleRequest, hm, hne, createResourceNotFoundResponse, hnot, h]
  · simp [handleRequest, h₁, h₂]

/-- Closed instance of C4 at the three inputs of the spec's example table. -/
theorem handleRequest_interception_exact_witness :
    handleRequest { id := some (.num 1), method := "resources/list".data, params := none } =
      some { id := some (.num 1), result := some emptyResourcesResult, error := none } ∧
    handleRequest { id := some (.num 2), method := "resources/read".data, params := none } =
      some { id := some (.num 2), result := none,
             error := some { code := -32002, message := "Resource not found".data,
                             data := none } } ∧
    handleRequest { id := some (.num 3), method := "tools/list".data, params := none } = none :=
  ⟨(handleRequest_interception_exact _ (.num 1) rfl).1 rfl,
   (handleRequest_interception_exact _ (.num 2) rfl).2.1 rfl,
   (handleRequest_interception_exact _ (.num 3) rfl).2.2 (by decide) (by decide)⟩

/-- C5: the notification rule — a request lacking an id draws no response
from any of the three response constructors, whatever its method and
whatever error data is supplied. -/
theorem notification_rule (r : RpcRequest) (h : r.id = none) (code : Int) (message : Str)
    (data : Option (Str × Str × Bool)) :
    createEmptyResourcesResponse r = none ∧
    createResourceNotFoundResponse r = none ∧
    createErrorResponse r code message data = none := by
  have hnot : isNotification r = true := by simp [isNotification, h]
  exact ⟨by simp [createEmptyResourcesResponse, hnot],
         by simp [createResourceNotFoundResponse, hnot],
         by simp [createErrorResponse, hnot]⟩

/-- Closed instance of C5 at an id-less `resources/list` request. -/
theorem notification_rule_witness :
    createEmptyResourcesResponse { id := none, method := "resources/list".data, params := none }
        = none ∧
    createResourceNotFoundResponse { id := none, method := "resources/list".data, params := none }
        = none ∧
    createErrorResponse { id := none, method := "resources/list".data, params := none }
        (-32603) "m".data none = none :=
  notification_rule _ rfl (-32603) "m".data none

/-- C7: an uncorrelated backend response is still relayed — when the
response's id is absent/null or not tracked, `complete` reports not-found
and `handleCodexResponse` sends the response to the client unmodified. -/
theorem uncorrelated_response_forwarded (st : ProxyState) (resp : RpcResponse)
    (h : resp.id = none ∨ ∃ i, resp.id = some i ∧ st.requestTracker.has i = false) :
    (st.requestTracker.complete resp.id).1 = none ∧
    (handleCodexResponse st resp).2 = [.sendToClient resp] := by
  have hc : (st.requestTracker.complete resp.id).1 = none := by
    rcases h with h | ⟨i, hi, hhas⟩
    · simp [RequestTracker.complete, h]
    · have hfind : st.requestTracker.pending.find? (fun p => p.1 = i) = none := by
        cases hf : st.requestTracker.pending.find? (fun p => p.1 = i) with
        | none => rfl
        | some x =>
          have hpx := List.find?_some hf
          have hmx := List.mem_of_find?_eq_some hf
          have hx : st.requestTracker.has i = true := by
            simp only [RequestTracker.has, List.any_eq_true]
            exact ⟨x, hmx, hpx⟩
          rw [hx] at hhas
          exact absurd hhas (by simp)
      simp [RequestTracker.complete, hi, hfind]
  refine ⟨hc, ?_⟩
  simp only [handleCodexResponse, hc]

/-- Closed instance of C7: a response whose id was never tracked passes
through unchanged. -/
theorem uncorrelated_response_forwarded_witness :
    ((RequestTracker.default).complete (some (.num 9))).1 = none ∧
    (handleCodexResponse
        { upstreamAvailable := true, stdinWritable := true,
          requestTracker := RequestTracker.default }
        { id := some (.num 9), result := some (.str "ok".data), error := none }).2 =
      [.sendToClient { id := some (.num 9), result := some (.str "ok".data), error := none }] := by
  exact uncorrelated_response_forwarded
    { upstreamAvailable := true, stdinWritable := true,
      requestTracker := RequestTracker.default }
    { id := some (.num 9), result := some (.str "ok".data), error := none }
    (Or.inr ⟨.num 9, rfl, rfl⟩)

theorem mapSet_key_val {m : List (RpcId × TrackedRequest)} {i : RpcId} {v : TrackedRequest}
    {p : RpcId × TrackedRequest} (hp : p ∈ mapSet m i v) (hk : p.1 = i) : p.2 = v := by
  unfold mapSet at hp
  split at hp
  · rcases List.mem_map.mp hp with ⟨q, hq, hmap⟩
    by_cases hqi : q.1 = i
    · rw [if_pos hqi] at hmap; rw [← hmap]
    · rw [if_neg hqi] at hmap; rw [← hmap] at hk; exact absurd hk hqi
  · rcases List.mem_append.mp hp with hm | hs
    · rename_i hany
      exact absurd (List.any_eq_true.mpr ⟨p, hm, by simp [hk]⟩) hany
    · have : p = (i, v) := by simpa using hs
      rw [this]

/-- C8: TTL eviction — a request tracked at `t0` is gone after a sweep at
any time `t1` more than the TTL later (`has` is false and `complete`
reports not-found); moreover for every tracker state, a sweep returns
exactly the number of entries it deletes, keeps exactly the entries not
older than the TTL, and a second immediate sweep deletes nothing; the
constructor's default TTL is 60000 ms (60 seconds). -/
theorem ttl_eviction (t : RequestTracker) (r : RpcRequest) (i : RpcId) (t0 t1 : Int)
    (hid : r.id = some i) (hadv : t1 - t0 > t.ttlMs) :
    (((t.track t0 r).cleanup t1).2.has i = false ∧
      ((((t.track t0 r).cleanup t1).2).complete (some i)).1 = none) ∧
    (∀ (s : RequestTracker) (now : Int),
      (s.cleanup now).1 + (s.cleanup now).2.size = s.size ∧
      (∀ p, p ∈ (s.cleanup now).2.pending ↔
        p ∈ s.pending ∧ ¬(now - p.2.timestamp > s.ttlMs)) ∧
      ((s.cleanup now).2.cleanup now).1 = 0) ∧
    RequestTracker.default.ttlMs = 60000 := by
  have hkey : ∀ p ∈ (t.track t0 r).pending, p.1 = i → p.2.timestamp = t0 := by
    intro p hp hpk
    have : (t.track t0 r).pending = mapSet (if t.pending.length ≥ t.maxSize then
        ((t.cleanup t0).2).pending else t.pending) i { request := r, timestamp := t0 } := by
      simp only [RequestTracker.track, hid]
      split <;> rfl
    rw [this] at hp
    rw [mapSet_key_val hp hpk]
  have httl : (t.track t0 r).ttlMs = t.ttlMs := by
    simp only [RequestTracker.track, hid]
    split <;> rfl
  have hnomem : ∀ p ∈ ((t.track t0 r).cleanup t1).2.pending, p.1 ≠ i := by
    intro p hp hpk
    simp only [RequestTracker.cleanup, List.mem_filter] at hp
    rcases hp with ⟨hmem, hcond⟩
    rw [hkey p hmem hpk, httl] at hcond
    simp only [Bool.not_eq_eq_eq_not, Bool.not_true, decide_eq_false_iff_not] at hcond
    exact hcond hadv
  have hhas : ((t.track t0 r).cleanup t1).2.has i = false := by
    cases hh : ((t.track t0 r).cleanup t1).2.has i with
    | false => rfl
    | true =>
      simp only [RequestTracker.has, List.any_eq_true] at hh
      rcases hh with ⟨p, hp, hpk⟩
      exact absurd (of_decide_eq_true hpk) (hnomem p hp)
  refine ⟨⟨hhas, ?_⟩, fun s now => ⟨?_, fun p => ?_, ?_⟩, rfl⟩
  · have hfind : (((t.track t0 r).cleanup t1).2).pending.find? (fun p => p.1 = i) = none := by
      cases hf : (((t.track t0 r).cleanup t1).2).pending.find? (fun p => p.1 = i) with
      | none => rfl
      | some x =>
        have hpx := List.find?_some hf
        have hmx := List.mem_of_find?_eq_some hf
        exact absurd (of_decide_eq_true hpx) (hnomem x hmx)
    simp [RequestTracker.complete, hfind]
  · simp only [RequestTracker.cleanup, RequestTracker.size]
    exact (List.length_eq_length_filter_add _).symm
  · simp only [RequestTracker.cleanup, List.mem_filter]
    constructor
    · rintro ⟨hm, hc⟩
      refine ⟨hm, ?_⟩
      simpa using hc
    · rintro ⟨hm, hc⟩
      refine ⟨hm, ?_⟩
      simpa using hc
  · simp only [RequestTracker.cleanup, List.filter_filter]
    rw [show (fun (p : RpcId × TrackedRequest) =>
        decide (now - p.2.timestamp > s.ttlMs) && !decide (now - p.2.timestamp > s.ttlMs)) =
        fun _ => false from funext (fun p => Bool.and_not_self _)]
    simp

/-- Closed instance of C8: track id 5 at time 0, sweep at time 60001. -/
theorem ttl_eviction_witness :
    ((RequestTracker.default.track 0
        { id := some (.num 5), method := "tools/call".data, params := none }).cleanup 60001).2.has
      (.num 5) = false :=
  ((ttl_eviction RequestTracker.default
    { id := some (.num 5), method := "tools/call".data, params := none }
    (.num 5) 0 60001 rfl (by norm_num [RequestTracker.default])).1).1

/-- C6 counterexample: with the upstream down, a non-intercepted request
that lacks an id (a notification) is answered with nothing at all —
`createUpstreamUnavailableError` returns null for it and
`handleClientRequest` emits zero effects, contradicting the claim that
every non-intercepted request is answered with the synthesized error. -/
theorem backend_down_notification_counterexample :
    (handleClientRequest
        { upstreamAvailable := false, stdinWritable := true,
          requestTracker := RequestTracker.default } 0
        { id := none, method := "tools/call".data, params := none }).2 = [] ∧
    handleRequest { id := none, method := "tools/call".data, params := none } = none := by
  constructor <;> rfl

/-- C6 amended: with the upstream down, a non-intercepted request carrying
an id is answered with exactly the upstream-unavailable error — code
−32603 and data carrying the fixed detail and suggestion texts, the
original request's method, and retryable = true — while a non-intercepted
notification is answered with nothing; in both cases the proxy state
(hence the tracker) is untouched and every emitted effect is a client
send, so nothing is written to the backend channel. -/
theorem backend_down_gating (st : ProxyState) (now : Int) (r : RpcRequest)
    (hup : st.upstreamAvailable = false) (hni : handleRequest r = none) :
    (handleClientRequest st now r).1 = st ∧
    (∀ e ∈ (handleClientRequest st now r).2, ∃ resp, e = .sendToClient resp) ∧
    (∀ i, r.id = some i →
      (handleClientRequest st now r).2 = [.sendToClient
        { id := some i, result := none,
          error := some { code := -32603,
                          message := ErrorMessages.UPSTREAM_UNAVAILABLE.message,
                          data := some { detail := ErrorMessages.UPSTREAM_UNAVAILABLE.detail,
                                         suggestion := ErrorMessages.UPSTREAM_UNAVAILABLE.suggestion,
                                         retryable := true,
                                         method := some r.method } } }]) ∧
    (r.id = none → (handleClientRequest st now r).2 = []) := by
  rcases hid : r.id with _ | i
  · have herr : createUpstreamUnavailableError r = none := by
      simp [createUpstreamUnavailableError, createErrorResponse, isNotification, hid]
    refine ⟨?_, ?_, ?_, ?_⟩
    · simp [handleClientRequest, hni, hup, herr]
    · intro e he
      simp [handleClientRequest, hni, hup, herr] at he
    · intro i hi; exact Option.noConfusion hi
    · intro _; simp [handleClientRequest, hni, hup, herr]
  · have herr : createUpstreamUnavailableError r = some
        { id := some i, result := none,
          error := some { code := -32603,
                          message := ErrorMessages.UPSTREAM_UNAVAILABLE.message,
                          data := some { detail := ErrorMessages.UPSTREAM_UNAVAILABLE.detail,
                                         suggestion := ErrorMessages.UPSTREAM_UNAVAILABLE.suggestion,
                                         retryable := true,
                                         method := some r.method } } } := by
      simp [createUpstreamUnavailableError, createErrorResponse, isNotification, hid,
        ErrorCodes.UPSTREAM_UNAVAILABLE, ErrorMessages.UPSTREAM_UNAVAILABLE]
    refine ⟨?_, ?_, ?_, ?_⟩
    · simp [handleClientRequest, hni, hup, herr]
    · intro e he
      simp only [handleClientRequest, hni, hup, herr] at he
      simp at he
      exact ⟨_, he⟩
    · intro i' hi'
      cases hi'
      simp [handleClientRequest, hni, hup, herr]
    · intro hn; exact Option.noConfusion hn

/-- Closed instance of the amended C6 at a concrete `tools/call` request. -/
theorem backend_down_gating_witness :
    (handleClientRequest
        { upstreamAvailable := false, stdinWritable := true,
          requestTracker := RequestTracker.default } 0
        { id := some (.num 7), method := "tools/call".data, params := none }).2 =
      [.sendToClient
        { id := some (.num 7), result := none,
          error := some { code := -32603,
                          message := ErrorMessages.UPSTREAM_UNAVAILABLE.message,
                          data := some { detail := ErrorMessages.UPSTREAM_UNAVAILABLE.detail,
                                         suggestion := ErrorMessages.UPSTREAM_UNAVAILABLE.suggestion,
                                         retryable := true,
                                         method := some "tools/call".data } } }] := by
  exact ((backend_down_gating
    { upstreamAvailable := false, stdinWritable := true,
      requestTracker := RequestTracker.default } 0
    { id := some (.num 7), method := "tools/call".data, params := none }
    rfl rfl).2.2.1) (.num 7) rfl

/-- C10: an id-less request to an intercepted method is not consumed
locally — `handleRequest` returns null for it, and with the backend
available and writable the orchestrator forwards it to the backend
without tracking it and without answering the client. -/
theorem intercepted_notifications_forwarded (st : ProxyState) (now : Int) (r : RpcRequest)
    (hid : r.id = none)
    (hm : r.method = "resources/list".data ∨ r.method = "resources/read".data)
    (hup : st.upstreamAvailable = true) (hw : st.stdinWritable = true) :
    handleRequest r = none ∧
    handleClientRequest st now r = (st, [.writeToCodex r]) := by
  have hni : handleRequest r = none := by
    have hnot : isNotification r = true := by simp [isNotification, hid]
    rcases hm with hm | hm
    · simp [handleRequest, hm, createEmptyResourcesResponse, hnot]
    · by_cases hlist : r.method = "resources/list".data
      · rw [hm] at hlist; exact absurd hlist (by decide)
      · simp [handleRequest, hlist, hm, createResourceNotFoundResponse, hnot]
  refine ⟨hni, ?_⟩
  have hnot : isNotification r = true := by simp [isNotification, hid]
  simp [handleClientRequest, hni, hup, hnot, forwardToCodex, hw]

/-- Closed instance of C10 at an id-less `resources/list` request. -/
theorem intercepted_notifications_forwarded_witness :
    handleRequest { id := none, method := "resources/list".data, params := none } = none ∧
    handleClientRequest
        { upstreamAvailable := true, stdinWritable := true,
          requestTracker := RequestTracker.default } 0
        { id := none, method := "resources/list".data, params := none } =
      ({ upstreamAvailable := true, stdinWritable := true,
         requestTracker := RequestTracker.default },
       [.writeToCodex { id := none, method := "resources/list".data, params := none }]) := by
  exact intercepted_notifications_forwarded
    { upstreamAvailable := true, stdinWritable := true,
      requestTracker := RequestTracker.default } 0
    { id := none, method := "resources/list".data, params := none }
    rfl (Or.inl rfl) rfl rfl

/-- C2 counterexample: a buffer holding a dropped candidate followed by a
complete valid message yields no message from that `parse` call — the
valid message is left in the buffer, not returned, contradicting the
claim that extraction repeats until no complete value remains. -/
theorem parse_drop_counterexample :
    MessageParser.parse []
        ("\x7bbad\x7d\x7b\"jsonrpc\":\"2.0\",\"id\":1,\"method\":\"a\"\x7d").data =
      ([], "\x7b\"jsonrpc\":\"2.0\",\"id\":1,\"method\":\"a\"\x7d".data) ∧
    (MessageParser.parse "\x7b\"jsonrpc\":\"2.0\",\"id\":1,\"method\":\"a\"\x7d".data []).1 =
      [.obj [("jsonrpc".data, .str "2.0".data), ("id".data, .num 1),
             ("method".data, .str "a".data)]] := by
  constructor <;> rfl

/-- C2 amended: a dropped candidate ends the extraction loop for that
call — `parse` returns the messages gathered so far (none here) with the
candidate's bytes consumed — and complete valid messages still in the
buffer are returned by the next `parse` call rather than the same one. -/
theorem parse_halts_at_dropped_candidate (buffer chunk b' : Str)
    (h : tryExtractMessage (buffer ++ chunk) = (none, b')) :
    MessageParser.parse buffer chunk = ([], b') ∧
    (∀ r b'', tryExtractMessage b' = (some r, b'') →
      (MessageParser.parse b' []).1 = r.expand ++ (parseLoop b'').1) := by
  constructor
  · exact parseLoop_none h
  · intro r b'' h2
    show (parseLoop (b' ++ [])).1 = _
    rw [List.append_nil, parseLoop_some h2]

/-- Closed instance of the amended C2: the dropped `{bad}` candidate is
consumed with nothing returned, and the buffered valid request arrives
with the next call. -/
theorem parse_halts_at_dropped_candidate_witness :
    MessageParser.parse []
        ("\x7bbad\x7d\x7b\"jsonrpc\":\"2.0\",\"id\":1,\"method\":\"a\"\x7d").data =
      ([], "\x7b\"jsonrpc\":\"2.0\",\"id\":1,\"method\":\"a\"\x7d".data) ∧
    (MessageParser.parse "\x7b\"jsonrpc\":\"2.0\",\"id\":1,\"method\":\"a\"\x7d".data []).1 =
      [.obj [("jsonrpc".data, .str "2.0".data), ("id".data, .num 1),
             ("method".data, .str "a".data)]] := by
  have h := parse_halts_at_dropped_candidate []
    ("\x7bbad\x7d\x7b\"jsonrpc\":\"2.0\",\"id\":1,\"method\":\"a\"\x7d").data
    "\x7b\"jsonrpc\":\"2.0\",\"id\":1,\"method\":\"a\"\x7d".data rfl
  refine ⟨h.1, ?_⟩
  have h2 := h.2
    (.msg (.obj [("jsonrpc".data, .str "2.0".data), ("id".data, .num 1),
                 ("method".data, .str "a".data)])) [] rfl
  simpa using h2

/-- C3 counterexample: the framer accepts the batch `[{"jsonrpc":"2.0"}]`
and emits its sole element even though that element is neither a Request
nor a Response, contradicting the claim that every batch element must be
so shaped. -/
theorem batch_validation_counterexample :
    MessageParser.parse [] "[\x7b\"jsonrpc\":\"2.0\"\x7d]".data =
      ([.obj [("jsonrpc".data, .str "2.0".data)]], []) ∧
    isJsonRpcRequest (.obj [("jsonrpc".data, .str "2.0".data)]) = false ∧
    isJsonRpcResponse (.obj [("jsonrpc".data, .str "2.0".data)]) = false := by
  refine ⟨rfl, rfl, rfl⟩

/-- C3 amended: an extracted top-level array is accepted (and expanded
into its elements) exactly when it is non-empty and every element is an
object carrying `jsonrpc` equal to `"2.0"` (`isJsonRpcMessage`) — the
elements need not be shaped as Requests or Responses; otherwise the array
is silently dropped with its bytes consumed. -/
theorem batch_element_validation (buf : Str) (e : Nat) (xs : List Json)
    (hend : chosenEnd buf = some e)
    (hjson : parseJson (buf.take (e + 1)) = some (.arr xs)) :
    (0 < xs.length ∧ (∀ x ∈ xs, isJsonRpcMessage x = true) →
      extractFrom buf = (some (.batch xs), buf.drop (e + 1))) ∧
    ((xs = [] ∨ ∃ x ∈ xs, isJsonRpcMessage x = false) →
      extractFrom buf = (none, buf.drop (e + 1))) := by
  unfold extractFrom
  rw [hend]
  dsimp only
  rw [hjson]
  dsimp only
  constructor
  · rintro ⟨hlen, hall⟩
    have hb : isJsonRpcBatch (.arr xs) = true := by
      simp only [isJsonRpcBatch, Bool.and_eq_true, decide_eq_true_eq, List.all_eq_true]
      exact ⟨hlen, hall⟩
    rw [if_pos hb]
  · intro hbad
    have hb : isJsonRpcBatch (.arr xs) = false := by
      rcases hbad with hnil | ⟨x, hx, hfalse⟩
      · subst hnil; rfl
      · simp only [isJsonRpcBatch, Bool.and_eq_false_iff]
        right
        rw [List.all_eq_false]
        exact ⟨x, hx, by simp [hfalse]⟩
    rw [if_neg (by simp [hb])]

/-- Closed instance of the amended C3 at the batch `[{"jsonrpc":"2.0"}]`. -/
theorem batch_element_validation_witness :
    extractFrom "[\x7b\"jsonrpc\":\"2.0\"\x7d]".data =
      (some (.batch [.obj [("jsonrpc".data, .str "2.0".data)]]),
       ("[\x7b\"jsonrpc\":\"2.0\"\x7d]".data).drop 19) := by
  exact (batch_element_validation "[\x7b\"jsonrpc\":\"2.0\"\x7d]".data 18
    [.obj [("jsonrpc".data, .str "2.0".data)]] rfl rfl).1
    ⟨by decide, by intro x hx; simp at hx; subst hx; rfl⟩

/-- C9 counterexample: an input with no balanced span and no opening
bracket does not leave the buffer retained — the framer discards it
entirely. -/
theorem framer_noise_counterexample :
    MessageParser.parse [] "abc".data = ([], []) ∧ "abc".data ≠ ([] : Str) :=
  ⟨rfl, by decide⟩

theorem tryExtract_noise (b : Str) (ho : objectStartB b = false) (ha : arrayStartB b = false)
    (k : Nat) (hk : minBracketIdx b = some k) :
    tryExtractMessage b = extractFrom (b.drop k) := by
  unfold minBracketIdx at hk
  unfold tryExtractMessage
  rw [ho, ha]
  rcases h1 : b.findIdx? (fun c => c = '{') with _ | o
  · rcases h2 : b.findIdx? (fun c => c = '[') with _ | a
    · rw [h1, h2] at hk
      simp at hk
    · rw [h1, h2] at hk
      dsimp only at hk
      simp only [Option.some.injEq] at hk
      subst hk
      simp
  · rcases h2 : b.findIdx? (fun c => c = '[') with _ | a
    · rw [h1, h2] at hk
      dsimp only at hk
      simp only [Option.some.injEq] at hk
      subst hk
      simp
    · rw [h1, h2] at hk
      dsimp only at hk
      simp only [Option.some.injEq] at hk
      subst hk
      simp

theorem minBracketIdx_head (b : Str) (k : Nat) (hk : minBracketIdx b = some k) :
    ∃ t, b.drop k = '{' :: t ∨ b.drop k = '[' :: t := by
  have hgetO : ∀ o, b.findIdx? (fun c => c = '{') = some o → ∃ t, b.drop o = '{' :: t := by
    intro o hfo
    obtain ⟨hlt, hp, _⟩ := List.findIdx?_eq_some_iff_getElem.mp hfo
    refine ⟨b.drop (o + 1), ?_⟩
    rw [List.drop_eq_getElem_cons hlt]
    simp at hp
    rw [hp]
  have hgetA : ∀ a, b.findIdx? (fun c => c = '[') = some a → ∃ t, b.drop a = '[' :: t := by
    intro a hfa
    obtain ⟨hlt, hp, _⟩ := List.findIdx?_eq_some_iff_getElem.mp hfa
    refine ⟨b.drop (a + 1), ?_⟩
    rw [List.drop_eq_getElem_cons hlt]
    simp at hp
    rw [hp]
  unfold minBracketIdx at hk
  rcases h1 : b.findIdx? (fun c => c = '{') with _ | o <;>
    rcases h2 : b.findIdx? (fun c => c = '[') with _ | a <;>
      rw [h1, h2] at hk <;> dsimp only at hk
  · simp at hk
  · simp only [Option.some.injEq] at hk
    subst hk
    obtain ⟨t, ht⟩ := hgetA a h2
    exact ⟨t, Or.inr ht⟩
  · simp only [Option.some.injEq] at hk
    subst hk
    obtain ⟨t, ht⟩ := hgetO o h1
    exact ⟨t, Or.inl ht⟩
  · simp only [Option.some.injEq] at hk
    subst hk
    rw [Nat.min_def]
    by_cases hle : o ≤ a
    · rw [if_pos hle]
      obtain ⟨t, ht⟩ := hgetO o h1
      exact ⟨t, Or.inl ht⟩
    · rw [if_neg hle]
      obtain ⟨t, ht⟩ := hgetA a h2
      exact ⟨t, Or.inr ht⟩

/-- C9 amended: the framer is total (a plain function of the buffer); a
complete candidate span that fails JSON decoding is consumed and yields no
message, and a buffer holding no balanced span is retained verbatim, in
both cases whether the trimmed buffer starts with an opening bracket
directly or only after noise; when the trimmed buffer starts with neither
bracket, the noise before the first `{` or `[` (whichever comes first) is
discarded up to that bracket, and a buffer with no opening bracket at all
is discarded entirely. -/
theorem framer_totality (buffer chunk : Str) :
    ((objectStartB (buffer ++ chunk) || arrayStartB (buffer ++ chunk)) = true →
      ∀ e, chosenEnd (buffer ++ chunk) = some e →
        parseJson ((buffer ++ chunk).take (e + 1)) = none →
        MessageParser.parse buffer chunk = ([], (buffer ++ chunk).drop (e + 1))) ∧
    ((objectStartB (buffer ++ chunk) || arrayStartB (buffer ++ chunk)) = true →
      chosenEnd (buffer ++ chunk) = none →
      MessageParser.parse buffer chunk = ([], buffer ++ chunk)) ∧
    (objectStartB (buffer ++ chunk) = false → arrayStartB (buffer ++ chunk) = false →
      ∀ k, minBracketIdx (buffer ++ chunk) = some k →
        (∃ t, (buffer ++ chunk).drop k = '{' :: t ∨ (buffer ++ chunk).drop k = '[' :: t) ∧
        (∀ e, chosenEnd ((buffer ++ chunk).drop k) = some e →
          parseJson (((buffer ++ chunk).drop k).take (e + 1)) = none →
          MessageParser.parse buffer chunk = ([], ((buffer ++ chunk).drop k).drop (e + 1))) ∧
        (chosenEnd ((buffer ++ chunk).drop k) = none →
          MessageParser.parse buffer chunk = ([], (buffer ++ chunk).drop k))) ∧
    ((buffer ++ chunk).findIdx? (fun c => c = '{') = none →
      (buffer ++ chunk).findIdx? (fun c => c = '[') = none →
      MessageParser.parse buffer chunk = ([], [])) := by
  have hstart : ∀ b : Str, (objectStartB b || arrayStartB b) = true →
      tryExtractMessage b = extractFrom b := by
    intro b hb
    have hcond : (!objectStartB b && !arrayStartB b) = false := by
      cases ho : objectStartB b <;> cases ha : arrayStartB b <;> simp_all
    unfold tryExtractMessage
    rw [hcond]
    simp
  refine ⟨fun hb e hend hjson => ?_, fun hb hend => ?_, fun ho ha k hk => ?_,
    fun hfo hfa => ?_⟩
  · apply parseLoop_none
    rw [hstart _ hb]
    unfold extractFrom
    rw [hend]
    dsimp only
    rw [hjson]
  · apply parseLoop_none
    rw [hstart _ hb]
    unfold extractFrom
    rw [hend]
  · refine ⟨minBracketIdx_head _ k hk, fun e hend hjson => ?_, fun hend => ?_⟩
    · apply parseLoop_none
      rw [tryExtract_noise _ ho ha k hk]
      unfold extractFrom
      rw [hend]
      dsimp only
      rw [hjson]
    · apply parseLoop_none
      rw [tryExtract_noise _ ho ha k hk]
      unfold extractFrom
      rw [hend]
  · apply parseLoop_none
    have hno : objectStartB (buffer ++ chunk) = false := by
      unfold objectStartB
      rcases hd : (buffer ++ chunk).dropWhile isWsChar with _ | ⟨c, rest⟩
      · rfl
      · by_cases hc : c = '{'
        · subst hc
          have hmem : '{' ∈ buffer ++ chunk := by
            have : '{' ∈ (buffer ++ chunk).dropWhile isWsChar := by rw [hd]; simp
            exact (List.dropWhile_sublist _).subset this
          have := List.findIdx?_eq_none_iff.mp hfo
          have hfalse := this '{' hmem
          simp at hfalse
        · simp [hd, hc]
    have hna : arrayStartB (buffer ++ chunk) = false := by
      unfold arrayStartB
      rcases hd : (buffer ++ chunk).dropWhile isWsChar with _ | ⟨c, rest⟩
      · rfl
      · by_cases hc : c = '['
        · subst hc
          have hmem : '[' ∈ buffer ++ chunk := by
            have : '[' ∈ (buffer ++ chunk).dropWhile isWsChar := by rw [hd]; simp
            exact (List.dropWhile_sublist _).subset this
          have := List.findIdx?_eq_none_iff.mp hfa
          have hfalse := this '[' hmem
          simp at hfalse
        · simp [hd, hc]
    unfold tryExtractMessage
    rw [hno, hna, hfo, hfa]
    simp

/-- Closed instance of the amended C9: a failing candidate is consumed, an
unbalanced bracketed buffer is retained, noise before a first `[` is
discarded with the unbalanced remainder retained, noise before a first `{`
is discarded with the failing candidate behind it consumed, and
bracketless noise is discarded entirely. -/
theorem framer_totality_witness :
    MessageParser.parse [] "\x7bbad\x7d".data = ([], []) ∧
    MessageParser.parse [] "\x7b\"par".data = ([], "\x7b\"par".data) ∧
    MessageParser.parse [] "ab[1,2".data = ([], "[1,2".data) ∧
    MessageParser.parse [] "xy\x7bbad\x7d".data = ([], []) ∧
    MessageParser.parse [] "abc".data = ([], []) := by
  refine ⟨?_, ?_, ?_, ?_, ?_⟩
  · have := (framer_totality [] "\x7bbad\x7d".data).1 rfl 4 rfl rfl
    simpa using this
  · have := (framer_totality [] "\x7b\"par".data).2.1 rfl rfl
    simpa using this
  · have := ((framer_totality [] "ab[1,2".data).2.2.1 rfl rfl 2 rfl).2.2 rfl
    simpa using this
  · have := ((framer_totality [] "xy\x7bbad\x7d".data).2.2.1 rfl rfl 2 rfl).2.1 4 rfl rfl
    simpa using this
  · have := (framer_totality [] "abc".data).2.2.2 rfl rfl
    simpa using this

theorem natToStrAux_congr : ∀ (f₁ f₂ n : Nat) (acc : Str), n < f₁ → n < f₂ →
    natToStrAux f₁ n acc = natToStrAux f₂ n acc := by
  intro f₁
  induction f₁ with
  | zero => intro f₂ n acc h₁ h₂; omega
  | succ f ih =>
    intro f₂ n acc h₁ h₂
    cases f₂ with
    | zero => omega
    | succ f' =>
      simp only [natToStrAux]
      by_cases hn : n < 10
      · simp [hn]
      · have hdiv : n / 10 < n := Nat.div_lt_self (by omega) (by omega)
        simp only [if_neg hn]
        exact ih f' (n / 10) _ (by omega) (by omega)

theorem natToStrAux_acc : ∀ (f n : Nat) (acc : Str),
    natToStrAux f n acc = natToStrAux f n [] ++ acc := by
  intro f
  induction f with
  | zero => intro n acc; simp [natToStrAux]
  | succ f ih =>
    intro n acc
    simp only [natToStrAux]
    by_cases hn : n < 10
    · simp [hn]
    · simp only [if_neg hn]
      rw [ih (n / 10) (digitChar (n % 10) :: acc), ih (n / 10) [digitChar (n % 10)]]
      simp

theorem natToStr_lt_ten {n : Nat} (h : n < 10) : natToStr n = [digitChar n] := by
  simp [natToStr, natToStrAux, h]

theorem natToStr_ge_ten {n : Nat} (h : 10 ≤ n) :
    natToStr n = natToStr (n / 10) ++ [digitChar (n % 10)] := by
  have hdiv : n / 10 < n := Nat.div_lt_self (by omega) (by omega)
  unfold natToStr
  simp only [natToStrAux, if_neg (by omega : ¬n < 10)]
  rw [natToStrAux_acc]
  congr 1
  exact natToStrAux_congr n (n / 10 + 1) (n / 10) [] (by omega) (by omega)

theorem digitChar_facts : ∀ d : Nat, d < 10 →
    isDigitC (digitChar d) = true ∧ digitVal (digitChar d) = d := by
  intro d h
  interval_cases d <;> exact ⟨rfl, rfl⟩

theorem natToStr_all_digits : ∀ n : Nat, ∀ c ∈ natToStr n, isDigitC c = true := by
  intro n
  induction n using Nat.strong_induction_on with
  | _ n ih =>
    intro c hc
    by_cases hn : n < 10
    · rw [natToStr_lt_ten hn] at hc
      simp at hc
      subst hc
      exact (digitChar_facts n hn).1
    · rw [natToStr_ge_ten (by omega)] at hc
      rcases List.mem_append.mp hc with hm | hm
      · exact ih (n / 10) (Nat.div_lt_self (by omega) (by omega)) c hm
      · simp at hm
        subst hm
        exact (digitChar_facts (n % 10) (Nat.mod_lt _ (by omega))).1

theorem natToStr_ne_nil (n : Nat) : natToStr n ≠ [] := by
  by_cases hn : n < 10
  · rw [natToStr_lt_ten hn]; simp
  · rw [natToStr_ge_ten (by omega)]; simp

theorem parseDigitsAux_chain : ∀ (n : Nat), ∀ (acc : Nat) (rest : Str),
    parseDigitsAux acc (natToStr n ++ rest) =
      parseDigitsAux (acc * 10 ^ (natToStr n).length + n) rest := by
  intro n
  induction n using Nat.strong_induction_on with
  | _ n ih =>
    intro acc rest
    by_cases hn : n < 10
    · rw [natToStr_lt_ten hn]
      simp only [List.cons_append, List.nil_append, parseDigitsAux,
        (digitChar_facts n hn).1, if_true, (digitChar_facts n hn).2]
      rw [Nat.mul_comm 10 acc]
      simp
    · rw [natToStr_ge_ten (by omega), List.append_assoc, List.cons_append, List.nil_append]
      rw [ih (n / 10) (Nat.div_lt_self (by omega) (by omega)) acc
        (digitChar (n % 10) :: rest)]
      have hd := digitChar_facts (n % 10) (Nat.mod_lt _ (by omega))
      simp only [parseDigitsAux, hd.1, if_true, hd.2]
      congr 1
      simp only [List.length_append, List.length_cons, List.length_nil, pow_succ]
      have h2 : 10 * (n / 10) + n % 10 = n := Nat.div_add_mod n 10
      calc 10 * (acc * 10 ^ (natToStr (n / 10)).length + n / 10) + n % 10
          = acc * (10 ^ (natToStr (n / 10)).length * 10) + (10 * (n / 10) + n % 10) := by ring
        _ = acc * (10 ^ ((natToStr (n / 10)).length + 0) * 10) + n := by rw [h2]; ring_nf

theorem parseDigitsAux_stop {rest : Str} (acc : Nat)
    (h : rest = [] ∨ ∃ c cs, rest = c :: cs ∧ isDigitC c = false) :
    parseDigitsAux acc rest = (acc, rest) := by
  rcases h with h | ⟨c, cs, hr, hc⟩
  · subst h; rfl
  · subst hr; simp [parseDigitsAux, hc]

theorem parseStrBody_rt : ∀ (s rest : Str),
    parseStrBody (escapeStr s ++ '"' :: rest) = some (s, rest) := by
  intro s
  induction s with
  | nil =>
    intro rest
    show parseStrBody ('"' :: rest) = some ([], rest)
    unfold parseStrBody
    simp
  | cons c s ih =>
    intro rest
    have hesc : escapeStr (c :: s) = escapeChar c ++ escapeStr s := by
      simp [escapeStr]
    rw [hesc]
    by_cases hq : c = '"'
    · subst hq
      simp only [escapeChar, if_pos rfl, List.cons_append, List.nil_append, List.append_assoc]
      unfold parseStrBody
      simp [decodeEscape, ih rest]
    · by_cases hb : c = '\\'
      · subst hb
        simp only [escapeChar, if_neg (by decide : ¬('\\' : Char) = '"'), if_pos rfl,
          List.cons_append, List.nil_append, List.append_assoc]
        unfold parseStrBody
        simp [decodeEscape, ih rest]
      · simp only [escapeChar, if_neg hq, if_neg hb, List.cons_append, List.nil_append,
          List.append_assoc]
        unfold parseStrBody
        simp [hq, hb, ih rest]

theorem digit_ne_dispatch {c : Char} (hc : isDigitC c = true) :
    c ≠ '{' ∧ c ≠ '[' ∧ c ≠ '"' ∧ c ≠ 'n' ∧ c ≠ 't' ∧ c ≠ 'f' ∧ c ≠ '-' := by
  simp only [isDigitC, Bool.and_eq_true, decide_eq_true_eq] at hc
  refine ⟨?_, ?_, ?_, ?_, ?_, ?_, ?_⟩ <;> rintro rfl <;> exact absurd hc (by decide)

theorem parseVal_digit {c : Char} (hc : isDigitC c = true) (fuel : Nat) (cs : Str) :
    parseVal (fuel + 1) (c :: cs) =
      some (.num ((parseDigitsAux 0 (c :: cs)).1 : Int), (parseDigitsAux 0 (c :: cs)).2) := by
  obtain ⟨h1, h2, h3, h4, h5, h6, h7⟩ := digit_ne_dispatch hc
  simp [parseVal, h1, h2, h3, h4, h5, h6, h7, hc]

theorem stringify_head : ∀ j : Json, ∃ c t, stringify j = c :: t ∧
    (c = '{' ∨ c = '[' ∨ c = '"' ∨ c = 'n' ∨ c = 't' ∨ c = 'f' ∨ c = '-' ∨
     isDigitC c = true) := by
  intro j
  cases j with
  | null => exact ⟨'n', _, rfl, by simp⟩
  | bool b => cases b with
    | true => exact ⟨'t', _, rfl, by simp⟩
    | false => exact ⟨'f', _, rfl, by simp⟩
  | num n =>
    by_cases hn : n < 0
    · exact ⟨'-', natToStr n.natAbs, by simp [stringify, intToStr, hn], by simp⟩
    · rcases hh : natToStr n.toNat with _ | ⟨c, t⟩
      · exact absurd hh (natToStr_ne_nil _)
      · refine ⟨c, t, by simp [stringify, intToStr, hn, hh], ?_⟩
        have := natToStr_all_digits n.toNat c (by rw [hh]; simp)
        tauto
  | str s => exact ⟨'"', _, rfl, by simp⟩
  | arr xs => exact ⟨'[', _, rfl, by simp⟩
  | obj fs => exact ⟨'{', _, rfl, by simp⟩

theorem stringify_ne_nil (j : Json) : stringify j ≠ [] := by
  obtain ⟨c, t, heq, _⟩ := stringify_head j
  rw [heq]
  simp

theorem digit_ne_structural {c : Char} (hc : isDigitC c = true) :
    c ≠ ']' ∧ c ≠ '}' ∧ c ≠ ',' ∧ c ≠ ':' := by
  simp only [isDigitC, Bool.and_eq_true, decide_eq_true_eq] at hc
  refine ⟨?_, ?_, ?_, ?_⟩ <;> rintro rfl <;> exact absurd hc (by decide)

theorem stringify_head_props (j : Json) :
    ∃ c t, stringify j = c :: t ∧ c ≠ ']' ∧ c ≠ '}' := by
  obtain ⟨c, t, heq, hc⟩ := stringify_head j
  refine ⟨c, t, heq, ?_, ?_⟩ <;>
    rcases hc with h | h | h | h | h | h | h | h <;>
      first
      | (subst h; decide)
      | (exact (digit_ne_structural h).1)
      | (exact (digit_ne_structural h).2.1)

theorem stringifyList_cons (x : Json) (xs : List Json) :
    ∃ u, stringifyList (x :: xs) = stringify x ++ u := by
  cases xs with
  | nil => exact ⟨[], by simp [stringifyList]⟩
  | cons y ys => exact ⟨',' :: stringifyList (y :: ys), by simp [stringifyList]⟩

theorem stringifyFields_cons (p : Str × Json) (fs : List (Str × Json)) :
    ∃ u, stringifyFields (p :: fs) = '"' :: (escapeStr p.1 ++ '"' :: ':' :: stringify p.2 ++ u) := by
  rcases p with ⟨k, v⟩
  cases fs with
  | nil => exact ⟨[], by simp [stringifyFields]⟩
  | cons f fs' => exact ⟨',' :: stringifyFields (f :: fs'), by simp [stringifyFields]⟩

theorem parseDigitsAux_natToStr (m : Nat) {rest : Str}
    (h : rest = [] ∨ ∃ c cs, rest = c :: cs ∧ isDigitC c = false) :
    parseDigitsAux 0 (natToStr m ++ rest) = (m, rest) := by
  rw [parseDigitsAux_chain]
  simp only [Nat.zero_mul, Nat.zero_add]
  exact parseDigitsAux_stop m h

theorem rtVal_step (f : Nat)
    (ihE : ∀ (xs : List Json) (rest : Str), xs ≠ [] → fuelNeedE xs ≤ f →
      parseElems f (stringifyList xs ++ ']' :: rest) = some (xs, rest))
    (ihM : ∀ (fs : List (Str × Json)) (rest : Str), fs ≠ [] → fuelNeedM fs ≤ f →
      parseMembers f (stringifyFields fs ++ '}' :: rest) = some (fs, rest)) :
    ∀ (j : Json) (rest : Str), fuelNeedV j ≤ f + 1 →
      ((∃ m, j = Json.num m) → rest = [] ∨ ∃ c cs, rest = c :: cs ∧ isDigitC c = false) →
      parseVal (f + 1) (stringify j ++ rest) = some (j, rest) := by
  intro j rest hfuel hguard
  cases j with
  | null =>
    rw [show stringify Json.null ++ rest = 'n' :: 'u' :: 'l' :: 'l' :: rest from rfl]
    simp [parseVal]
  | bool b =>
    cases b with
    | true =>
      rw [show stringify (Json.bool true) ++ rest = 't' :: 'r' :: 'u' :: 'e' :: rest from rfl]
      simp [parseVal]
    | false =>
      rw [show stringify (Json.bool false) ++ rest =
        'f' :: 'a' :: 'l' :: 's' :: 'e' :: rest from rfl]
      simp [parseVal]
  | num n =>
    have hg := hguard ⟨n, rfl⟩
    rw [show stringify (Json.num n) = intToStr n from rfl]
    by_cases hneg : n < 0
    · rw [intToStr, if_pos hneg]
      rcases hh : natToStr n.natAbs with _ | ⟨c, t⟩
      · exact absurd hh (natToStr_ne_nil _)
      · have hcd : isDigitC c = true := natToStr_all_digits _ c (by rw [hh]; simp)
        simp only [List.cons_append]
        simp only [parseVal, if_neg (by decide : ¬('-' : Char) = '{'),
          if_neg (by decide : ¬('-' : Char) = '['),
          if_neg (by decide : ¬('-' : Char) = '"'),
          if_neg (by decide : ¬('-' : Char) = 'n'),
          if_neg (by decide : ¬('-' : Char) = 't'),
          if_neg (by decide : ¬('-' : Char) = 'f'), if_pos rfl, if_true]
        simp only [parseNeg, hcd, if_pos rfl, if_true]
        have hpd : parseDigitsAux 0 (c :: (t ++ rest)) = (n.natAbs, rest) := by
          rw [show c :: (t ++ rest) = (c :: t) ++ rest by simp, ← hh]
          exact parseDigitsAux_natToStr _ hg
        rw [hpd]
        have hab : -((n.natAbs : Nat) : Int) = n := by omega
        simp [hab]
        rw [abs_of_neg hneg, neg_neg]
    · rw [intToStr, if_neg hneg]
      rcases hh : natToStr n.toNat with _ | ⟨c, t⟩
      · exact absurd hh (natToStr_ne_nil _)
      · have hcd : isDigitC c = true := natToStr_all_digits _ c (by rw [hh]; simp)
        rw [List.cons_append, parseVal_digit hcd]
        have hpd : parseDigitsAux 0 (c :: (t ++ rest)) = (n.toNat, rest) := by
          rw [show c :: (t ++ rest) = (c :: t) ++ rest by simp, ← hh]
          exact parseDigitsAux_natToStr _ hg
        rw [hpd]
        have hab : ((n.toNat : Nat) : Int) = n := by omega
        simp [hab]
  | str s =>
    rw [show stringify (Json.str s) = '"' :: escapeStr s ++ ['"'] from rfl,
      show ('"' :: escapeStr s ++ ['"']) ++ rest = '"' :: (escapeStr s ++ '"' :: rest) by simp]
    simp [parseVal, parseStrBody_rt]
  | arr xs =>
    cases xs with
    | nil =>
      rw [show stringify (Json.arr []) ++ rest = '[' :: ']' :: rest from rfl]
      simp [parseVal, headIs, strTail]
    | cons x xs' =>
      rw [show stringify (Json.arr (x :: xs')) = '[' :: stringifyList (x :: xs') ++ [']']
          from rfl,
        show ('[' :: stringifyList (x :: xs') ++ [']']) ++ rest =
          '[' :: (stringifyList (x :: xs') ++ ']' :: rest) by simp]
      obtain ⟨u, hu⟩ := stringifyList_cons x xs'
      obtain ⟨c, t, hct, hc1, hc2⟩ := stringify_head_props x
      have hhead : headIs ']' (stringifyList (x :: xs') ++ ']' :: rest) = false := by
        rw [hu, hct]
        simp [headIs, hc1]
      have hE := ihE (x :: xs') rest (by simp)
        (by have h1 : fuelNeedV (.arr (x :: xs')) = 1 + fuelNeedE (x :: xs') := rfl; omega)
      simp [parseVal, hhead, hE]
  | obj fs =>
    cases fs with
    | nil =>
      rw [show stringify (Json.obj []) ++ rest = '{' :: '}' :: rest from rfl]
      simp [parseVal, headIs, strTail]
    | cons p fs' =>
      rw [show stringify (Json.obj (p :: fs')) = '{' :: stringifyFields (p :: fs') ++ ['}']
          from rfl,
        show ('{' :: stringifyFields (p :: fs') ++ ['}']) ++ rest =
          '{' :: (stringifyFields (p :: fs') ++ '}' :: rest) by simp]
      obtain ⟨u, hu⟩ := stringifyFields_cons p fs'
      have hhead : headIs '}' (stringifyFields (p :: fs') ++ '}' :: rest) = false := by
        rw [hu]
        simp [headIs]
      have hM := ihM (p :: fs') rest (by simp)
        (by have h1 : fuelNeedV (.obj (p :: fs')) = 1 + fuelNeedM (p :: fs') := rfl; omega)
      simp [parseVal, hhead, hM]

theorem rtElems_step (f : Nat)
    (ihV : ∀ (j : Json) (rest : Str), fuelNeedV j ≤ f →
      ((∃ m, j = Json.num m) → rest = [] ∨ ∃ c cs, rest = c :: cs ∧ isDigitC c = false) →
      parseVal f (stringify j ++ rest) = some (j, rest))
    (ihE : ∀ (xs : List Json) (rest : Str), xs ≠ [] → fuelNeedE xs ≤ f →
      parseElems f (stringifyList xs ++ ']' :: rest) = some (xs, rest)) :
    ∀ (xs : List Json) (rest : Str), xs ≠ [] → fuelNeedE xs ≤ f + 1 →
      parseElems (f + 1) (stringifyList xs ++ ']' :: rest) = some (xs, rest) := by
  intro xs rest hne hfuel
  cases xs with
  | nil => exact absurd rfl hne
  | cons x xs' =>
    cases xs' with
    | nil =>
      rw [show stringifyList [x] = stringify x from rfl]
      have hV := ihV x (']' :: rest)
        (by have h1 : fuelNeedE [x] = 1 + fuelNeedV x := rfl; omega)
        (fun _ => Or.inr ⟨']', rest, rfl, by decide⟩)
      simp [parseElems, hV, headIs, strTail]
    | cons y ys =>
      rw [show stringifyList (x :: y :: ys) = stringify x ++ ',' :: stringifyList (y :: ys)
          from rfl]
      have hV := ihV x (',' :: (stringifyList (y :: ys) ++ ']' :: rest))
        (by have h1 : fuelNeedE (x :: y :: ys) =
              1 + max (fuelNeedV x) (fuelNeedE (y :: ys)) := rfl
            omega)
        (fun _ => Or.inr ⟨',', _, rfl, by decide⟩)
      have hE := ihE (y :: ys) rest (by simp)
        (by have h1 : fuelNeedE (x :: y :: ys) =
              1 + max (fuelNeedV x) (fuelNeedE (y :: ys)) := rfl
            omega)
      rw [show (stringify x ++ ',' :: stringifyList (y :: ys)) ++ ']' :: rest =
        stringify x ++ (',' :: (stringifyList (y :: ys) ++ ']' :: rest)) by simp]
      simp [parseElems, hV, headIs, strTail, hE]

theorem rtMembers_step (f : Nat)
    (ihV : ∀ (j : Json) (rest : Str), fuelNeedV j ≤ f →
      ((∃ m, j = Json.num m) → rest = [] ∨ ∃ c cs, rest = c :: cs ∧ isDigitC c = false) →
      parseVal f (stringify j ++ rest) = some (j, rest))
    (ihM : ∀ (fs : List (Str × Json)) (rest : Str), fs ≠ [] → fuelNeedM fs ≤ f →
      parseMembers f (stringifyFields fs ++ '}' :: rest) = some (fs, rest)) :
    ∀ (fs : List (Str × Json)) (rest : Str), fs ≠ [] → fuelNeedM fs ≤ f + 1 →
      parseMembers (f + 1) (stringifyFields fs ++ '}' :: rest) = some (fs, rest) := by
  intro fs rest hne hfuel
  cases fs with
  | nil => exact absurd rfl hne
  | cons p fs' =>
    rcases p with ⟨k, v⟩
    cases fs' with
    | nil =>
      rw [show stringifyFields [(k, v)] = '"' :: escapeStr k ++ '"' :: ':' :: stringify v
          from rfl]
      have hV := ihV v ('}' :: rest)
        (by have h1 : fuelNeedM [(k, v)] = 1 + fuelNeedV v := rfl; omega)
        (fun _ => Or.inr ⟨'}', rest, rfl, by decide⟩)
      rw [show ('"' :: escapeStr k ++ '"' :: ':' :: stringify v) ++ '}' :: rest =
        '"' :: (escapeStr k ++ '"' :: (':' :: (stringify v ++ '}' :: rest))) by simp]
      simp only [parseMembers, headIs, if_pos rfl, strTail, parseStrBody_rt, Option.bind_some,
        Option.some_bind]
      simp [hV, headIs, strTail]
    | cons q fs'' =>
      rw [show stringifyFields ((k, v) :: q :: fs'') =
        '"' :: escapeStr k ++ '"' :: ':' :: stringify v ++ ',' :: stringifyFields (q :: fs'')
          from rfl]
      have hV := ihV v (',' :: (stringifyFields (q :: fs'') ++ '}' :: rest))
        (by have h1 : fuelNeedM ((k, v) :: q :: fs'') =
              1 + max (fuelNeedV v) (fuelNeedM (q :: fs'')) := rfl
            omega)
        (fun _ => Or.inr ⟨',', _, rfl, by decide⟩)
      have hM := ihM (q :: fs'') rest (by simp)
        (by have h1 : fuelNeedM ((k, v) :: q :: fs'') =
              1 + max (fuelNeedV v) (fuelNeedM (q :: fs'')) := rfl
            omega)
      rw [show ('"' :: escapeStr k ++ '"' :: ':' :: stringify v ++
          ',' :: stringifyFields (q :: fs'')) ++ '}' :: rest =
        '"' :: (escapeStr k ++ '"' :: (':' :: (stringify v ++
          ',' :: (stringifyFields (q :: fs'') ++ '}' :: rest)))) by simp]
      simp only [parseMembers, headIs, if_pos rfl, strTail, parseStrBody_rt, Option.bind_some,
        Option.some_bind]
      simp [hV, headIs, strTail, hM]

theorem rtAll : ∀ fuel : Nat,
    (∀ (j : Json) (rest : Str), fuelNeedV j ≤ fuel →
      ((∃ m, j = Json.num m) → rest = [] ∨ ∃ c cs, rest = c :: cs ∧ isDigitC c = false) →
      parseVal fuel (stringify j ++ rest) = some (j, rest)) ∧
    (∀ (xs : List Json) (rest : Str), xs ≠ [] → fuelNeedE xs ≤ fuel →
      parseElems fuel (stringifyList xs ++ ']' :: rest) = some (xs, rest)) ∧
    (∀ (fs : List (Str × Json)) (rest : Str), fs ≠ [] → fuelNeedM fs ≤ fuel →
      parseMembers fuel (stringifyFields fs ++ '}' :: rest) = some (fs, rest)) := by
  intro fuel
  induction fuel with
  | zero =>
    refine ⟨fun j rest hf _ => ?_, fun xs rest hne hf => ?_, fun fs rest hne hf => ?_⟩
    · have hp : 1 ≤ fuelNeedV j := by
        cases j with
        | arr xs => cases xs <;> simp [fuelNeedV]
        | obj fs => cases fs <;> simp [fuelNeedV]
        | _ => simp [fuelNeedV]
      omega
    · have hp : 1 ≤ fuelNeedE xs := by
        cases xs with
        | nil => simp [fuelNeedE]
        | cons x xs' => cases xs' <;> simp [fuelNeedE]
      omega
    · have hp : 1 ≤ fuelNeedM fs := by
        cases fs with
        | nil => simp [fuelNeedM]
        | cons p fs' => rcases p with ⟨k, v⟩; cases fs' <;> simp [fuelNeedM]
      omega
  | succ f ih =>
    exact ⟨rtVal_step f ih.2.1 ih.2.2, rtElems_step f ih.1 ih.2.1, rtMembers_step f ih.1 ih.2.2⟩

mutual

theorem fuelBoundV : ∀ j : Json, fuelNeedV j ≤ 2 * (stringify j).length
  | .null => by simp [fuelNeedV, stringify]
  | .bool true => by simp [fuelNeedV, stringify]
  | .bool false => by simp [fuelNeedV, stringify]
  | .num n => by
    have h : 0 < (stringify (.num n)).length :=
      List.length_pos.mpr (stringify_ne_nil _)
    have h1 : fuelNeedV (.num n) = 1 := rfl
    omega
  | .str s => by
    have h : 0 < (stringify (.str s)).length :=
      List.length_pos.mpr (stringify_ne_nil _)
    have h1 : fuelNeedV (.str s) = 1 := rfl
    omega
  | .arr [] => by simp [fuelNeedV, stringify, stringifyList]
  | .arr (x :: xs) => by
    have h2 := fuelBoundE (x :: xs)
    have h1 : fuelNeedV (.arr (x :: xs)) = 1 + fuelNeedE (x :: xs) := rfl
    have hlen : (stringify (.arr (x :: xs))).length = (stringifyList (x :: xs)).length + 2 := by
      rw [show stringify (.arr (x :: xs)) = '[' :: stringifyList (x :: xs) ++ [']'] from rfl]
      simp
    omega
  | .obj [] => by simp [fuelNeedV, stringify, stringifyFields]
  | .obj (p :: fs) => by
    have h2 := fuelBoundM (p :: fs)
    have h1 : fuelNeedV (.obj (p :: fs)) = 1 + fuelNeedM (p :: fs) := rfl
    have hlen : (stringify (.obj (p :: fs))).length = (stringifyFields (p :: fs)).length + 2 := by
      rw [show stringify (.obj (p :: fs)) = '{' :: stringifyFields (p :: fs) ++ ['}'] from rfl]
      simp
    omega

theorem fuelBoundE : ∀ xs : List Json, fuelNeedE xs ≤ 2 * (stringifyList xs).length + 1
  | [] => by simp [fuelNeedE, stringifyList]
  | [x] => by
    have h1 := fuelBoundV x
    have h2 : fuelNeedE [x] = 1 + fuelNeedV x := rfl
    have h3 : (stringifyList [x]).length = (stringify x).length := by
      rw [show stringifyList [x] = stringify x from rfl]
    omega
  | x :: y :: ys => by
    have h1 := fuelBoundV x
    have h2 := fuelBoundE (y :: ys)
    have h3 : fuelNeedE (x :: y :: ys) = 1 + max (fuelNeedV x) (fuelNeedE (y :: ys)) := rfl
    have hlen : (stringifyList (x :: y :: ys)).length =
        (stringify x).length + 1 + (stringifyList (y :: ys)).length := by
      rw [show stringifyList (x :: y :: ys) = stringify x ++ ',' :: stringifyList (y :: ys)
          from rfl]
      simp
      omega
    have hm : max (fuelNeedV x) (fuelNeedE (y :: ys)) ≤
        2 * (stringify x).length + 2 * (stringifyList (y :: ys)).length + 1 :=
      max_le (by omega) (by omega)
    omega

theorem fuelBoundM : ∀ fs : List (Str × Json), fuelNeedM fs ≤ 2 * (stringifyFields fs).length + 1
  | [] => by simp [fuelNeedM, stringifyFields]
  | [(k, v)] => by
    have h1 := fuelBoundV v
    have h2 : fuelNeedM [(k, v)] = 1 + fuelNeedV v := rfl
    have hlen : (stringifyFields [(k, v)]).length = (escapeStr k).length + 3 +
        (stringify v).length := by
      rw [show stringifyFields [(k, v)] = '"' :: escapeStr k ++ '"' :: ':' :: stringify v
          from rfl]
      simp
      omega
    omega
  | (k, v) :: q :: fs => by
    have h1 := fuelBoundV v
    have h2 := fuelBoundM (q :: fs)
    have h3 : fuelNeedM ((k, v) :: q :: fs) =
        1 + max (fuelNeedV v) (fuelNeedM (q :: fs)) := rfl
    have hlen : (stringifyFields ((k, v) :: q :: fs)).length =
        (escapeStr k).length + 4 + (stringify v).length +
          (stringifyFields (q :: fs)).length := by
      rw [show stringifyFields ((k, v) :: q :: fs) =
        '"' :: escapeStr k ++ '"' :: ':' :: stringify v ++ ',' :: stringifyFields (q :: fs)
          from rfl]
      simp
      omega
    have hm : max (fuelNeedV v) (fuelNeedM (q :: fs)) ≤
        2 * (stringify v).length + 2 * (stringifyFields (q :: fs)).length + 1 :=
      max_le (by omega) (by omega)
    omega

end

theorem wsOnly_dropWhile {w : Str} (s : Str) (hw : wsOnly w = true) :
    (w ++ s).dropWhile isWsChar = s.dropWhile isWsChar := by
  induction w with
  | nil => rfl
  | cons c w ih =>
    simp only [wsOnly, List.all_cons, Bool.and_eq_true] at hw
    simp only [List.cons_append, List.dropWhile_cons, hw.1, if_true]
    exact ih (by simp [wsOnly, hw.2])

theorem parseJson_ws_stringify (w : Str) (fs : List (Str × Json)) (hw : wsOnly w = true) :
    parseJson (w ++ stringify (Json.obj fs)) = some (Json.obj fs) := by
  unfold parseJson
  rw [wsOnly_dropWhile _ hw]
  have hdw : (stringify (Json.obj fs)).dropWhile isWsChar = stringify (Json.obj fs) := by
    rw [show stringify (Json.obj fs) = '{' :: (stringifyFields fs ++ ['}']) from rfl]
    rw [List.dropWhile_cons]
    simp [isWsChar]
  rw [hdw]
  have hrt := (rtAll (2 * (stringify (Json.obj fs)).length + 2)).1 (Json.obj fs) []
    (by have := fuelBoundV (Json.obj fs); omega)
    (fun hm => by rcases hm with ⟨m, hm⟩; exact Json.noConfusion hm)
  rw [List.append_nil] at hrt
  dsimp only
  rw [hrt]
  simp

theorem scanNeutral (oc cc : Char) : ∀ (l cs : Str) (i : Nat) (d : Int) (st : Bool),
    (∀ c ∈ l, c ≠ oc ∧ c ≠ cc ∧ c ≠ '"' ∧ c ≠ '\\') →
    findJsonEndAux oc cc (l ++ cs) i d false false st =
      findJsonEndAux oc cc cs (i + l.length) d false false st := by
  intro l
  induction l with
  | nil => intro cs i d st _; simp
  | cons c l ih =>
    intro cs i d st hn
    obtain ⟨h1, h2, h3, h4⟩ := hn c (by simp)
    simp only [List.cons_append, findJsonEndAux, if_neg (by simp [h4] : ¬(c = '\\' && false) = true),
      Bool.false_eq_true, if_false, if_neg h3, if_neg h1, if_neg h2]
    rw [List.append_eq, ih cs (i + 1) d st (fun c hc => hn c (by simp [hc]))]
    congr 1
    simp
    omega

theorem aux_esc_pair (oc cc e : Char) (rest : Str) (i : Nat) (d : Int) (st : Bool) :
    findJsonEndAux oc cc ('\\' :: e :: rest) i d true false st =
      findJsonEndAux oc cc rest (i + 2) d true false st := by
  simp only [findJsonEndAux]
  simp [show i + 1 + 1 = i + 2 by omega]

theorem aux_str_char (oc cc c : Char) (hq : c ≠ '"') (hb : c ≠ '\\') (rest : Str)
    (i : Nat) (d : Int) (st : Bool) :
    findJsonEndAux oc cc (c :: rest) i d true false st =
      findJsonEndAux oc cc rest (i + 1) d true false st := by
  simp [findJsonEndAux, hq, hb]

theorem aux_quote (oc cc : Char) (rest : Str) (i : Nat) (d : Int) (b st : Bool) :
    findJsonEndAux oc cc ('"' :: rest) i d b false st =
      findJsonEndAux oc cc rest (i + 1) d (!b) false st := by
  cases b <;> simp [findJsonEndAux]

theorem aux_open (oc cc : Char) (hq : oc ≠ '"') (hb : oc ≠ '\\') (_hne : oc ≠ cc)
    (rest : Str) (i : Nat) (d : Int) (st : Bool) :
    findJsonEndAux oc cc (oc :: rest) i d false false st =
      findJsonEndAux oc cc rest (i + 1) (d + 1) false false true := by
  simp [findJsonEndAux, hq, hb]

theorem aux_close_go (oc cc : Char) (hq : cc ≠ '"') (hb : cc ≠ '\\') (hne : cc ≠ oc)
    (rest : Str) (i : Nat) (d : Int) (st : Bool) (hd : ¬(st = true ∧ d - 1 = 0)) :
    findJsonEndAux oc cc (cc :: rest) i d false false st =
      findJsonEndAux oc cc rest (i + 1) (d - 1) false false st := by
  have hd' : (st && (d - 1 == 0)) = false := by
    cases st
    · simp
    · simp only [Bool.true_and, beq_eq_false_iff_ne, ne_eq]
      intro h0
      exact hd ⟨rfl, h0⟩
  simp [findJsonEndAux, hq, hb, hne, hd']

theorem aux_close_stop (oc cc : Char) (hq : cc ≠ '"') (hb : cc ≠ '\\') (hne : cc ≠ oc)
    (rest : Str) (i : Nat) (d : Int) (hd : d - 1 = 0) :
    findJsonEndAux oc cc (cc :: rest) i d false false true = some i := by
  simp [findJsonEndAux, hq, hb, hne, hd]

theorem scanStrContent (oc cc : Char) : ∀ (s cs : Str) (i : Nat) (d : Int) (st : Bool),
    findJsonEndAux oc cc (escapeStr s ++ cs) i d true false st =
      findJsonEndAux oc cc cs (i + (escapeStr s).length) d true false st := by
  intro s
  induction s with
  | nil => intro cs i d st; simp [escapeStr]
  | cons c s ih =>
    intro cs i d st
    rw [show escapeStr (c :: s) = escapeChar c ++ escapeStr s by simp [escapeStr]]
    by_cases hq : c = '"'
    · subst hq
      rw [show escapeChar '"' ++ escapeStr s ++ cs = '\\' :: '"' :: (escapeStr s ++ cs)
          from by simp [escapeChar]]
      rw [aux_esc_pair, ih cs (i + 2) d st]
      congr 1
      simp [escapeChar]
      omega
    · by_cases hb : c = '\\'
      · subst hb
        rw [show escapeChar '\\' ++ escapeStr s ++ cs = '\\' :: '\\' :: (escapeStr s ++ cs)
            from by simp [escapeChar]]
        rw [aux_esc_pair, ih cs (i + 2) d st]
        congr 1
        simp [escapeChar]
        omega
      · rw [show escapeChar c ++ escapeStr s ++ cs = c :: (escapeStr s ++ cs)
            from by simp [escapeChar, hq, hb]]
        rw [aux_str_char oc cc c hq hb, ih cs (i + 1) d st]
        congr 1
        simp [escapeChar, hq, hb]
        omega

theorem scanStrContentNone (oc cc : Char) : ∀ (s q t : Str) (i : Nat) (d : Int) (st : Bool),
    q ++ t = escapeStr s →
    findJsonEndAux oc cc q i d true false st = none := by
  intro s
  induction s with
  | nil =>
    intro q t i d st h
    simp [escapeStr] at h
    rw [h.1]
    rfl
  | cons c s ih =>
    intro q t i d st h
    rw [show escapeStr (c :: s) = escapeChar c ++ escapeStr s by simp [escapeStr]] at h
    by_cases hq : c = '"'
    · subst hq
      rw [show escapeChar '"' = ['\\', '"'] from rfl] at h
      cases q with
      | nil => rfl
      | cons a q₂ =>
        have ha : a = '\\' := by
          have := congrArg List.head? h
          simpa using this
        subst ha
        cases q₂ with
        | nil => simp [findJsonEndAux]
        | cons b q₃ =>
          have hb2 : b = '"' ∧ q₃ ++ t = escapeStr s := by
            simpa using h
          rcases hb2 with ⟨hb2, hrest⟩
          subst hb2
          rw [aux_esc_pair]
          exact ih q₃ t _ _ _ hrest
    · by_cases hb : c = '\\'
      · subst hb
        rw [show escapeChar '\\' = ['\\', '\\'] from rfl] at h
        cases q with
        | nil => rfl
        | cons a q₂ =>
          have ha : a = '\\' := by
            have := congrArg List.head? h
            simpa using this
          subst ha
          cases q₂ with
          | nil => simp [findJsonEndAux]
          | cons b q₃ =>
            have hb2 : b = '\\' ∧ q₃ ++ t = escapeStr s := by
              simpa using h
            rcases hb2 with ⟨hb2, hrest⟩
            subst hb2
            rw [aux_esc_pair]
            exact ih q₃ t _ _ _ hrest
      · rw [show escapeChar c = [c] from by simp [escapeChar, hq, hb]] at h
        cases q with
        | nil => rfl
        | cons a q₂ =>
          have ha : a = c ∧ q₂ ++ t = escapeStr s := by
            simpa using h
          rcases ha with ⟨ha, hrest⟩
          subst ha
          rw [aux_str_char oc cc a hq hb]
          exact ih q₂ t _ _ _ hrest

theorem intToStr_chars : ∀ (n : Int) (c : Char), c ∈ intToStr n →
    isDigitC c = true ∨ c = '-' := by
  intro n c hc
  unfold intToStr at hc
  split at hc
  · rcases List.mem_cons.mp hc with h | h
    · exact Or.inr h
    · exact Or.inl (natToStr_all_digits _ c h)
  · exact Or.inl (natToStr_all_digits _ c hc)

theorem digit_or_minus_neutral : ∀ c : Char, (isDigitC c = true ∨ c = '-') →
    c ≠ '{' ∧ c ≠ '}' ∧ c ≠ '[' ∧ c ≠ ']' ∧ c ≠ '"' ∧ c ≠ '\\' := by
  intro c hc
  rcases hc with hc | hc
  · simp only [isDigitC, Bool.and_eq_true, decide_eq_true_eq] at hc
    refine ⟨?_, ?_, ?_, ?_, ?_, ?_⟩ <;> rintro rfl <;> exact absurd hc (by decide)
  · subst hc
    decide

mutual

theorem scanV (oc cc : Char) (hpair : (oc = '{' ∧ cc = '}') ∨ (oc = '[' ∧ cc = ']')) :
    ∀ (j : Json) (cs : Str) (i : Nat) (d : Int), 1 ≤ d →
    findJsonEndAux oc cc (stringify j ++ cs) i d false false true =
      findJsonEndAux oc cc cs (i + (stringify j).length) d false false true
  | .null, cs, i, d, hd => by
    have hn : ∀ c ∈ ['n', 'u', 'l', 'l'], c ≠ oc ∧ c ≠ cc ∧ c ≠ '"' ∧ c ≠ '\\' := by
      rcases hpair with ⟨h1, h2⟩ | ⟨h1, h2⟩ <;> subst h1 <;> subst h2 <;> decide
    rw [show stringify Json.null = ['n', 'u', 'l', 'l'] from rfl,
      scanNeutral oc cc _ cs i d true hn]
  | .bool true, cs, i, d, hd => by
    have hn : ∀ c ∈ ['t', 'r', 'u', 'e'], c ≠ oc ∧ c ≠ cc ∧ c ≠ '"' ∧ c ≠ '\\' := by
      rcases hpair with ⟨h1, h2⟩ | ⟨h1, h2⟩ <;> subst h1 <;> subst h2 <;> decide
    rw [show stringify (Json.bool true) = ['t', 'r', 'u', 'e'] from rfl,
      scanNeutral oc cc _ cs i d true hn]
  | .bool false, cs, i, d, hd => by
    have hn : ∀ c ∈ ['f', 'a', 'l', 's', 'e'], c ≠ oc ∧ c ≠ cc ∧ c ≠ '"' ∧ c ≠ '\\' := by
      rcases hpair with ⟨h1, h2⟩ | ⟨h1, h2⟩ <;> subst h1 <;> subst h2 <;> decide
    rw [show stringify (Json.bool false) = ['f', 'a', 'l', 's', 'e'] from rfl,
      scanNeutral oc cc _ cs i d true hn]
  | .num n, cs, i, d, hd => by
    have hn : ∀ c ∈ stringify (Json.num n), c ≠ oc ∧ c ≠ cc ∧ c ≠ '"' ∧ c ≠ '\\' := by
      intro c hc
      have hm := digit_or_minus_neutral c (intToStr_chars n c hc)
      rcases hpair with ⟨h1, h2⟩ | ⟨h1, h2⟩ <;> subst h1 <;> subst h2 <;>
        exact ⟨by tauto, by tauto, by tauto, by tauto⟩
    rw [scanNeutral oc cc _ cs i d true hn]
  | .str s, cs, i, d, hd => by
    rw [show stringify (Json.str s) ++ cs = '"' :: (escapeStr s ++ ('"' :: cs)) by
      rw [show stringify (Json.str s) = '"' :: escapeStr s ++ ['"'] from rfl]; simp]
    rw [aux_quote, Bool.not_false, scanStrContent, aux_quote, Bool.not_true]
    congr 1
    rw [show stringify (Json.str s) = '"' :: escapeStr s ++ ['"'] from rfl]
    simp
    omega
  | .arr xs, cs, i, d, hd => by
    rw [show stringify (Json.arr xs) ++ cs = '[' :: (stringifyList xs ++ (']' :: cs)) by
      rw [show stringify (Json.arr xs) = '[' :: stringifyList xs ++ [']'] from rfl]; simp]
    have hlen : (stringify (Json.arr xs)).length = (stringifyList xs).length + 2 := by
      rw [show stringify (Json.arr xs) = '[' :: stringifyList xs ++ [']'] from rfl]
      simp
    rcases hpair with ⟨h1, h2⟩ | ⟨h1, h2⟩ <;> subst h1 <;> subst h2
    · have hob : ∀ c ∈ ['['], c ≠ '{' ∧ c ≠ '}' ∧ c ≠ '"' ∧ c ≠ '\\' := by decide
      have hcb : ∀ c ∈ [']'], c ≠ '{' ∧ c ≠ '}' ∧ c ≠ '"' ∧ c ≠ '\\' := by decide
      rw [show ('[' :: (stringifyList xs ++ (']' :: cs)) : Str) =
        ['['] ++ (stringifyList xs ++ (']' :: cs)) from rfl]
      rw [scanNeutral _ _ _ _ _ _ _ hob,
        scanL '{' '}' (Or.inl ⟨rfl, rfl⟩) xs _ _ _ hd]
      rw [show (']' :: cs : Str) = [']'] ++ cs from rfl,
        scanNeutral _ _ _ _ _ _ _ hcb]
      congr 1
      simp at hlen ⊢
      omega
    · rw [aux_open '[' ']' (by decide) (by decide) (by decide)]
      rw [scanL '[' ']' (Or.inr ⟨rfl, rfl⟩) xs _ _ _ (by omega)]
      rw [aux_close_go '[' ']' (by decide) (by decide) (by decide) _ _ _ _
        (by intro hcon; omega)]
      rw [show d + 1 - 1 = d by omega]
      congr 1
      simp at hlen ⊢
      omega
  | .obj fs, cs, i, d, hd => by
    rw [show stringify (Json.obj fs) ++ cs = '{' :: (stringifyFields fs ++ ('}' :: cs)) by
      rw [show stringify (Json.obj fs) = '{' :: stringifyFields fs ++ ['}'] from rfl]; simp]
    have hlen : (stringify (Json.obj fs)).length = (stringifyFields fs).length + 2 := by
      rw [show stringify (Json.obj fs) = '{' :: stringifyFields fs ++ ['}'] from rfl]
      simp
    rcases hpair with ⟨h1, h2⟩ | ⟨h1, h2⟩ <;> subst h1 <;> subst h2
    · rw [aux_open '{' '}' (by decide) (by decide) (by decide)]
      rw [scanM '{' '}' (Or.inl ⟨rfl, rfl⟩) fs _ _ _ (by omega)]
      rw [aux_close_go '{' '}' (by decide) (by decide) (by decide) _ _ _ _
        (by intro hcon; omega)]
      rw [show d + 1 - 1 = d by omega]
      congr 1
      simp at hlen ⊢
      omega
    · have hob : ∀ c ∈ ['{'], c ≠ '[' ∧ c ≠ ']' ∧ c ≠ '"' ∧ c ≠ '\\' := by decide
      have hcb : ∀ c ∈ ['}'], c ≠ '[' ∧ c ≠ ']' ∧ c ≠ '"' ∧ c ≠ '\\' := by decide
      rw [show ('{' :: (stringifyFields fs ++ ('}' :: cs)) : Str) =
        ['{'] ++ (stringifyFields fs ++ ('}' :: cs)) from rfl]
      rw [scanNeutral _ _ _ _ _ _ _ hob,
        scanM '[' ']' (Or.inr ⟨rfl, rfl⟩) fs _ _ _ hd]
      rw [show ('}' :: cs : Str) = ['}'] ++ cs from rfl,
        scanNeutral _ _ _ _ _ _ _ hcb]
      congr 1
      simp at hlen ⊢
      omega

theorem scanL (oc cc : Char) (hpair : (oc = '{' ∧ cc = '}') ∨ (oc = '[' ∧ cc = ']')) :
    ∀ (xs : List Json) (cs : Str) (i : Nat) (d : Int), 1 ≤ d →
    findJsonEndAux oc cc (stringifyList xs ++ cs) i d false false true =
      findJsonEndAux oc cc cs (i + (stringifyList xs).length) d false false true
  | [], cs, i, d, hd => by simp [stringifyList]
  | [x], cs, i, d, hd => by
    rw [show stringifyList [x] = stringify x from rfl]
    exact scanV oc cc hpair x cs i d hd
  | x :: y :: ys, cs, i, d, hd => by
    have hcom : ∀ c ∈ [','], c ≠ oc ∧ c ≠ cc ∧ c ≠ '"' ∧ c ≠ '\\' := by
      rcases hpair with ⟨h1, h2⟩ | ⟨h1, h2⟩ <;> subst h1 <;> subst h2 <;> decide
    rw [show stringifyList (x :: y :: ys) ++ cs =
      stringify x ++ ([','] ++ (stringifyList (y :: ys) ++ cs)) by
        rw [show stringifyList (x :: y :: ys) =
          stringify x ++ ',' :: stringifyList (y :: ys) from rfl]
        simp]
    rw [scanV oc cc hpair x _ _ _ hd, scanNeutral _ _ _ _ _ _ _ hcom,
      scanL oc cc hpair (y :: ys) cs _ _ hd]
    congr 1
    rw [show stringifyList (x :: y :: ys) =
      stringify x ++ ',' :: stringifyList (y :: ys) from rfl]
    simp
    omega

theorem scanM (oc cc : Char) (hpair : (oc = '{' ∧ cc = '}') ∨ (oc = '[' ∧ cc = ']')) :
    ∀ (fs : List (Str × Json)) (cs : Str) (i : Nat) (d : Int), 1 ≤ d →
    findJsonEndAux oc cc (stringifyFields fs ++ cs) i d false false true =
      findJsonEndAux oc cc cs (i + (stringifyFields fs).length) d false false true
  | [], cs, i, d, hd => by simp [stringifyFields]
  | [(k, v)], cs, i, d, hd => by
    have hcol : ∀ c ∈ [':'], c ≠ oc ∧ c ≠ cc ∧ c ≠ '"' ∧ c ≠ '\\' := by
      rcases hpair with ⟨h1, h2⟩ | ⟨h1, h2⟩ <;> subst h1 <;> subst h2 <;> decide
    rw [show stringifyFields [(k, v)] ++ cs =
      '"' :: (escapeStr k ++ ('"' :: ([':'] ++ (stringify v ++ cs)))) by
        rw [show stringifyFields [(k, v)] =
          '"' :: escapeStr k ++ '"' :: ':' :: stringify v from rfl]
        simp]
    rw [aux_quote, Bool.not_false, scanStrContent, aux_quote, Bool.not_true,
      scanNeutral _ _ _ _ _ _ _ hcol, scanV oc cc hpair v cs _ _ hd]
    congr 1
    rw [show stringifyFields [(k, v)] =
      '"' :: escapeStr k ++ '"' :: ':' :: stringify v from rfl]
    simp
    omega
  | (k, v) :: q :: fs, cs, i, d, hd => by
    have hcol : ∀ c ∈ [':'], c ≠ oc ∧ c ≠ cc ∧ c ≠ '"' ∧ c ≠ '\\' := by
      rcases hpair with ⟨h1, h2⟩ | ⟨h1, h2⟩ <;> subst h1 <;> subst h2 <;> decide
    have hcom : ∀ c ∈ [','], c ≠ oc ∧ c ≠ cc ∧ c ≠ '"' ∧ c ≠ '\\' := by
      rcases hpair with ⟨h1, h2⟩ | ⟨h1, h2⟩ <;> subst h1 <;> subst h2 <;> decide
    rw [show stringifyFields ((k, v) :: q :: fs) ++ cs =
      '"' :: (escapeStr k ++ ('"' :: ([':'] ++ (stringify v ++
        ([','] ++ (stringifyFields (q :: fs) ++ cs)))))) by
        rw [show stringifyFields ((k, v) :: q :: fs) =
          '"' :: escapeStr k ++ '"' :: ':' :: stringify v ++ ',' :: stringifyFields (q :: fs)
            from rfl]
        simp]
    rw [aux_quote, Bool.not_false, scanStrContent, aux_quote, Bool.not_true,
      scanNeutral _ _ _ _ _ _ _ hcol, scanV oc cc hpair v _ _ _ hd,
      scanNeutral _ _ _ _ _ _ _ hcom, scanM oc cc hpair (q :: fs) cs _ _ hd]
    congr 1
    rw [show stringifyFields ((k, v) :: q :: fs) =
      '"' :: escapeStr k ++ '"' :: ':' :: stringify v ++ ',' :: stringifyFields (q :: fs)
        from rfl]
    simp
    omega

end

mutual

theorem scanPV (oc cc : Char) (hpair : (oc = '{' ∧ cc = '}') ∨ (oc = '[' ∧ cc = ']')) :
    ∀ (j : Json) (q t : Str) (i : Nat) (d : Int), q ++ t = stringify j → 1 ≤ d →
    findJsonEndAux oc cc q i d false false true = none
  | .null, q, t, i, d, h, hd => by
    have hn : ∀ c ∈ q, c ≠ oc ∧ c ≠ cc ∧ c ≠ '"' ∧ c ≠ '\\' := by
      intro c hc
      have hcs : c ∈ stringify Json.null := h ▸ List.mem_append_left t hc
      rw [show stringify Json.null = ['n', 'u', 'l', 'l'] from rfl] at hcs
      have hlit : ∀ c' ∈ (['n', 'u', 'l', 'l'] : Str),
          c' ≠ oc ∧ c' ≠ cc ∧ c' ≠ '"' ∧ c' ≠ '\\' := by
        rcases hpair with ⟨h1, h2⟩ | ⟨h1, h2⟩ <;> subst h1 <;> subst h2 <;> decide
      exact hlit c hcs
    rw [← List.append_nil q, scanNeutral oc cc _ _ _ _ _ hn]
    rfl
  | .bool b, q, t, i, d, h, hd => by
    have hn : ∀ c ∈ q, c ≠ oc ∧ c ≠ cc ∧ c ≠ '"' ∧ c ≠ '\\' := by
      intro c hc
      have hcs : c ∈ stringify (Json.bool b) := h ▸ List.mem_append_left t hc
      cases b with
      | false =>
        rw [show stringify (Json.bool false) = ['f', 'a', 'l', 's', 'e'] from rfl] at hcs
        have hlit : ∀ c' ∈ (['f', 'a', 'l', 's', 'e'] : Str),
            c' ≠ oc ∧ c' ≠ cc ∧ c' ≠ '"' ∧ c' ≠ '\\' := by
          rcases hpair with ⟨h1, h2⟩ | ⟨h1, h2⟩ <;> subst h1 <;> subst h2 <;> decide
        exact hlit c hcs
      | true =>
        rw [show stringify (Json.bool true) = ['t', 'r', 'u', 'e'] from rfl] at hcs
        have hlit : ∀ c' ∈ (['t', 'r', 'u', 'e'] : Str),
            c' ≠ oc ∧ c' ≠ cc ∧ c' ≠ '"' ∧ c' ≠ '\\' := by
          rcases hpair with ⟨h1, h2⟩ | ⟨h1, h2⟩ <;> subst h1 <;> subst h2 <;> decide
        exact hlit c hcs
    rw [← List.append_nil q, scanNeutral oc cc _ _ _ _ _ hn]
    rfl
  | .num n, q, t, i, d, h, hd => by
    have hn : ∀ c ∈ q, c ≠ oc ∧ c ≠ cc ∧ c ≠ '"' ∧ c ≠ '\\' := by
      intro c hc
      have hcs : c ∈ stringify (Json.num n) := h ▸ List.mem_append_left t hc
      have hm := digit_or_minus_neutral c (intToStr_chars n c hcs)
      rcases hpair with ⟨h1, h2⟩ | ⟨h1, h2⟩ <;> subst h1 <;> subst h2 <;>
        exact ⟨by tauto, by tauto, by tauto, by tauto⟩
    rw [← List.append_nil q, scanNeutral oc cc _ _ _ _ _ hn]
    rfl
  | .str s, q, t, i, d, h, hd => by
    rw [show stringify (Json.str s) = '"' :: (escapeStr s ++ ['"']) by
      rw [show stringify (Json.str s) = '"' :: escapeStr s ++ ['"'] from rfl,
        List.cons_append]] at h
    cases q with
    | nil => rfl
    | cons a q₂ =>
      have ha : a = '"' ∧ q₂ ++ t = escapeStr s ++ ['"'] := by simpa using h
      rcases ha with ⟨ha, h2⟩
      subst ha
      rw [aux_quote, Bool.not_false]
      rcases List.append_eq_append_iff.mp h2 with ⟨a', ha1, ha2⟩ | ⟨c', hc1, hc2⟩
      · exact scanStrContentNone oc cc s q₂ a' _ _ _ ha1.symm
      · cases c' with
        | nil =>
          rw [List.append_nil] at hc1
          exact scanStrContentNone oc cc s q₂ [] _ _ _ (by rw [List.append_nil]; exact hc1)
        | cons b c₂ =>
          have hb : b = '"' ∧ c₂ = [] := by
            have := hc2.symm
            simp only [List.cons_append, List.cons.injEq] at this
            exact ⟨this.1, (List.append_eq_nil.mp this.2).1⟩
          rcases hb with ⟨hb, hc2nil⟩
          subst hb
          subst hc2nil
          subst hc1
          rw [scanStrContent, aux_quote, Bool.not_true]
          rfl
  | .arr xs, q, t, i, d, h, hd => by
    rw [show stringify (Json.arr xs) = '[' :: (stringifyList xs ++ [']']) by
      rw [show stringify (Json.arr xs) = '[' :: stringifyList xs ++ [']'] from rfl,
        List.cons_append]] at h
    cases q with
    | nil => rfl
    | cons a q₂ =>
      have ha : a = '[' ∧ q₂ ++ t = stringifyList xs ++ [']'] := by simpa using h
      rcases ha with ⟨ha, h2⟩
      subst ha
      have hstep : ∃ d' : Int, 1 ≤ d' ∧ (cc = ']' → 1 ≤ d' - 1 ∨ d' - 1 = d) ∧
          findJsonEndAux oc cc ('[' :: q₂) i d false false true =
            findJsonEndAux oc cc q₂ (i + 1) d' false false true ∧ 1 ≤ d' := by
        rcases hpair with ⟨h1, hc2⟩ | ⟨h1, hc2⟩ <;> subst h1 <;> subst hc2
        · refine ⟨d, hd, by simp, ?_, hd⟩
          rw [show ('[' :: q₂ : Str) = ['['] ++ q₂ from rfl,
            scanNeutral _ _ _ _ _ _ _ (by decide)]
          rfl
        · exact ⟨d + 1, by omega, by intro _; left; omega,
            aux_open '[' ']' (by decide) (by decide) (by decide) q₂ i d true, by omega⟩
      rcases hstep with ⟨d', hd', hinfo, hrw, hd'2⟩
      rw [hrw]
      rcases List.append_eq_append_iff.mp h2 with ⟨a', ha1, ha2⟩ | ⟨c', hc1, hc2⟩
      · exact scanPL oc cc hpair xs q₂ a' _ _ ha1.symm hd'
      · cases c' with
        | nil =>
          rw [List.append_nil] at hc1
          exact scanPL oc cc hpair xs q₂ [] _ _ (by rw [List.append_nil]; exact hc1) hd'
        | cons b c₂ =>
          have hb : b = ']' ∧ c₂ = [] := by
            have := hc2.symm
            simp only [List.cons_append, List.cons.injEq] at this
            exact ⟨this.1, (List.append_eq_nil.mp this.2).1⟩
          rcases hb with ⟨hb, hcnil⟩
          subst hb
          subst hcnil
          subst hc1
          rw [scanL oc cc hpair xs _ _ _ hd']
          rcases hpair with ⟨h1, hc2'⟩ | ⟨h1, hc2'⟩ <;> subst h1 <;> subst hc2'
          · rw [show (']' : Char) :: ([] : Str) = [']'] ++ [] from rfl,
              scanNeutral _ _ _ _ _ _ _ (by decide)]
            rfl
          · rw [aux_close_go '[' ']' (by decide) (by decide) (by decide) _ _ _ _
              (by rintro ⟨_, hcon2⟩; rcases hinfo rfl with h1 | h1 <;> omega)]
            rfl
  | .obj fs, q, t, i, d, h, hd => by
    rw [show stringify (Json.obj fs) = '{' :: (stringifyFields fs ++ ['}']) by
      rw [show stringify (Json.obj fs) = '{' :: stringifyFields fs ++ ['}'] from rfl,
        List.cons_append]] at h
    cases q with
    | nil => rfl
    | cons a q₂ =>
      have ha : a = '{' ∧ q₂ ++ t = stringifyFields fs ++ ['}'] := by simpa using h
      rcases ha with ⟨ha, h2⟩
      subst ha
      have hstep : ∃ d' : Int, 1 ≤ d' ∧
          findJsonEndAux oc cc ('{' :: q₂) i d false false true =
            findJsonEndAux oc cc q₂ (i + 1) d' false false true ∧
          (cc = '}' → d' = d + 1) := by
        rcases hpair with ⟨h1, hc2⟩ | ⟨h1, hc2⟩ <;> subst h1 <;> subst hc2
        · exact ⟨d + 1, by omega,
            aux_open '{' '}' (by decide) (by decide) (by decide) q₂ i d true,
            fun _ => rfl⟩
        · refine ⟨d, hd, ?_, by intro hcon; exact absurd hcon (by decide)⟩
          rw [show ('{' :: q₂ : Str) = ['{'] ++ q₂ from rfl,
            scanNeutral _ _ _ _ _ _ _ (by decide)]
          rfl
      rcases hstep with ⟨d', hd', hrw, hdd⟩
      rw [hrw]
      rcases List.append_eq_append_iff.mp h2 with ⟨a', ha1, ha2⟩ | ⟨c', hc1, hc2⟩
      · exact scanPM oc cc hpair fs q₂ a' _ _ ha1.symm hd'
      · cases c' with
        | nil =>
          rw [List.append_nil] at hc1
          exact scanPM oc cc hpair fs q₂ [] _ _ (by rw [List.append_nil]; exact hc1) hd'
        | cons b c₂ =>
          have hb : b = '}' ∧ c₂ = [] := by
            have := hc2.symm
            simp only [List.cons_append, List.cons.injEq] at this
            exact ⟨this.1, (List.append_eq_nil.mp this.2).1⟩
          rcases hb with ⟨hb, hcnil⟩
          subst hb
          subst hcnil
          subst hc1
          rw [scanM oc cc hpair fs _ _ _ hd']
          rcases hpair with ⟨h1, hc2'⟩ | ⟨h1, hc2'⟩ <;> subst h1 <;> subst hc2'
          · rw [aux_close_go '{' '}' (by decide) (by decide) (by decide) _ _ _ _
              (by intro hcon; have := hdd rfl; omega)]
            rfl
          · rw [show ('}' : Char) :: ([] : Str) = ['}'] ++ [] from rfl,
              scanNeutral _ _ _ _ _ _ _ (by decide)]
            rfl

theorem scanPL (oc cc : Char) (hpair : (oc = '{' ∧ cc = '}') ∨ (oc = '[' ∧ cc = ']')) :
    ∀ (xs : List Json) (q t : Str) (i : Nat) (d : Int), q ++ t = stringifyList xs → 1 ≤ d →
    findJsonEndAux oc cc q i d false false true = none
  | [], q, t, i, d, h, hd => by
    rw [show stringifyList [] = ([] : Str) from rfl] at h
    rw [(List.append_eq_nil.mp h).1]
    rfl
  | [x], q, t, i, d, h, hd =>
    scanPV oc cc hpair x q t i d (by rw [h]; rfl) hd
  | x :: y :: ys, q, t, i, d, h, hd => by
    rw [show stringifyList (x :: y :: ys) =
      stringify x ++ (',' :: stringifyList (y :: ys)) by
        rw [show stringifyList (x :: y :: ys) =
          stringify x ++ ',' :: stringifyList (y :: ys) from rfl]] at h
    rcases List.append_eq_append_iff.mp h with ⟨a', ha1, ha2⟩ | ⟨c', hc1, hc2⟩
    · exact scanPV oc cc hpair x q a' i d ha1.symm hd
    · subst hc1
      rw [scanV oc cc hpair x _ _ _ hd]
      cases c' with
      | nil => rfl
      | cons b c₂ =>
        have hb : b = ',' ∧ c₂ ++ t = stringifyList (y :: ys) := by
          have := hc2.symm
          simp only [List.cons_append, List.cons.injEq] at this
          exact ⟨this.1, this.2⟩
        rcases hb with ⟨hb, hrest⟩
        subst hb
        have hcom : ∀ c ∈ [','], c ≠ oc ∧ c ≠ cc ∧ c ≠ '"' ∧ c ≠ '\\' := by
          rcases hpair with ⟨h1, h2⟩ | ⟨h1, h2⟩ <;> subst h1 <;> subst h2 <;> decide
        rw [show (',' :: c₂ : Str) = [','] ++ c₂ from rfl,
          scanNeutral _ _ _ _ _ _ _ hcom]
        exact scanPL oc cc hpair (y :: ys) c₂ t _ _ hrest hd

theorem scanPM (oc cc : Char) (hpair : (oc = '{' ∧ cc = '}') ∨ (oc = '[' ∧ cc = ']')) :
    ∀ (fs : List (Str × Json)) (q t : Str) (i : Nat) (d : Int),
    q ++ t = stringifyFields fs → 1 ≤ d →
    findJsonEndAux oc cc q i d false false true = none
  | [], q, t, i, d, h, hd => by
    rw [show stringifyFields [] = ([] : Str) from rfl] at h
    rw [(List.append_eq_nil.mp h).1]
    rfl
  | [(k, v)], q, t, i, d, h, hd => by
    rw [show stringifyFields [(k, v)] =
      '"' :: (escapeStr k ++ ('"' :: (':' :: stringify v))) by
        rw [show stringifyFields [(k, v)] =
          '"' :: escapeStr k ++ '"' :: ':' :: stringify v from rfl]
        simp] at h
    cases q with
    | nil => rfl
    | cons a q₂ =>
      have ha : a = '"' ∧ q₂ ++ t = escapeStr k ++ ('"' :: (':' :: stringify v)) := by
        simpa using h
      rcases ha with ⟨ha, h2⟩
      subst ha
      rw [aux_quote, Bool.not_false]
      rcases List.append_eq_append_iff.mp h2 with ⟨a', ha1, ha2⟩ | ⟨c', hc1, hc2⟩
      · exact scanStrContentNone oc cc k q₂ a' _ _ _ ha1.symm
      · subst hc1
        rw [scanStrContent]
        cases c' with
        | nil => rfl
        | cons b c₂ =>
          have hb : b = '"' ∧ c₂ ++ t = ':' :: stringify v := by
            have := hc2.symm
            simp only [List.cons_append, List.cons.injEq] at this
            exact ⟨this.1, this.2⟩
          rcases hb with ⟨hb, hrest⟩
          subst hb
          rw [aux_quote, Bool.not_true]
          cases c₂ with
          | nil => rfl
          | cons e c₃ =>
            have he : e = ':' ∧ c₃ ++ t = stringify v := by
              have := hrest.symm
              simp only [List.cons_append, List.cons.injEq] at this
              exact ⟨this.1.symm, this.2.symm⟩
            rcases he with ⟨he, hrest2⟩
            subst he
            have hcol : ∀ c ∈ [':'], c ≠ oc ∧ c ≠ cc ∧ c ≠ '"' ∧ c ≠ '\\' := by
              rcases hpair with ⟨h1, h2⟩ | ⟨h1, h2⟩ <;> subst h1 <;> subst h2 <;> decide
            rw [show (':' :: c₃ : Str) = [':'] ++ c₃ from rfl,
              scanNeutral _ _ _ _ _ _ _ hcol]
            exact scanPV oc cc hpair v c₃ t _ _ hrest2 hd
  | (k, v) :: w :: fs, q, t, i, d, h, hd => by
    rw [show stringifyFields ((k, v) :: w :: fs) =
      '"' :: (escapeStr k ++ ('"' :: (':' :: (stringify v ++
        (',' :: stringifyFields (w :: fs)))))) by
        rw [show stringifyFields ((k, v) :: w :: fs) =
          '"' :: escapeStr k ++ '"' :: ':' :: stringify v ++ ',' :: stringifyFields (w :: fs)
            from rfl]
        simp] at h
    cases q with
    | nil => rfl
    | cons a q₂ =>
      have ha : a = '"' ∧ q₂ ++ t = escapeStr k ++
          ('"' :: (':' :: (stringify v ++ (',' :: stringifyFields (w :: fs))))) := by
        simpa using h
      rcases ha with ⟨ha, h2⟩
      subst ha
      rw [aux_quote, Bool.not_false]
      rcases List.append_eq_append_iff.mp h2 with ⟨a', ha1, ha2⟩ | ⟨c', hc1, hc2⟩
      · exact scanStrContentNone oc cc k q₂ a' _ _ _ ha1.symm
      · subst hc1
        rw [scanStrContent]
        cases c' with
        | nil => rfl
        | cons b c₂ =>
          have hb : b = '"' ∧ c₂ ++ t = ':' :: (stringify v ++
              (',' :: stringifyFields (w :: fs))) := by
            have := hc2.symm
            simp only [List.cons_append, List.cons.injEq] at this
            exact ⟨this.1, this.2⟩
          rcases hb with ⟨hb, hrest⟩
          subst hb
          rw [aux_quote, Bool.not_true]
          cases c₂ with
          | nil => rfl
          | cons e c₃ =>
            have he : e = ':' ∧ c₃ ++ t = stringify v ++
                (',' :: stringifyFields (w :: fs)) := by
              have := hrest.symm
              simp only [List.cons_append, List.cons.injEq] at this
              exact ⟨this.1.symm, this.2.symm⟩
            rcases he with ⟨he, hrest2⟩
            subst he
            have hcol : ∀ c ∈ [':'], c ≠ oc ∧ c ≠ cc ∧ c ≠ '"' ∧ c ≠ '\\' := by
              rcases hpair with ⟨h1, h2⟩ | ⟨h1, h2⟩ <;> subst h1 <;> subst h2 <;> decide
            rw [show (':' :: c₃ : Str) = [':'] ++ c₃ from rfl,
              scanNeutral _ _ _ _ _ _ _ hcol]
            rcases List.append_eq_append_iff.mp hrest2 with ⟨a', ha1, ha2⟩ | ⟨c', hc1', hc2'⟩
            · exact scanPV oc cc hpair v c₃ a' _ _ ha1.symm hd
            · subst hc1'
              rw [scanV oc cc hpair v _ _ _ hd]
              cases c' with
              | nil => rfl
              | cons g c₄ =>
                have hg : g = ',' ∧ c₄ ++ t = stringifyFields (w :: fs) := by
                  have := hc2'.symm
                  simp only [List.cons_append, List.cons.injEq] at this
                  exact ⟨this.1, this.2⟩
                rcases hg with ⟨hg, hrest3⟩
                subst hg
                have hcom : ∀ c ∈ [','], c ≠ oc ∧ c ≠ cc ∧ c ≠ '"' ∧ c ≠ '\\' := by
                  rcases hpair with ⟨h1, h2⟩ | ⟨h1, h2⟩ <;> subst h1 <;> subst h2 <;> decide
                rw [show (',' :: c₄ : Str) = [','] ++ c₄ from rfl,
                  scanNeutral _ _ _ _ _ _ _ hcom]
                exact scanPM oc cc hpair (w :: fs) c₄ t _ _ hrest3 hd

end

theorem wsChar_neutral {w : Str} (hw : wsOnly w = true) :
    ∀ c ∈ w, c ≠ '{' ∧ c ≠ '}' ∧ c ≠ '"' ∧ c ≠ '\\' := by
  intro c hc
  have hcw : isWsChar c = true := by
    simp only [wsOnly, List.all_eq_true] at hw
    exact hw c hc
  simp only [isWsChar, Bool.or_eq_true, decide_eq_true_eq] at hcw
  rcases hcw with ((h | h) | h) | h <;> subst h <;> decide

theorem findJsonEnd_complete (w t : Str) (fs : List (Str × Json)) (hw : wsOnly w = true) :
    findJsonEnd (w ++ (stringify (Json.obj fs) ++ t)) '{' '}' =
      some (w.length + (stringify (Json.obj fs)).length - 1) := by
  unfold findJsonEnd
  rw [scanNeutral _ _ _ _ _ _ _ (wsChar_neutral hw)]
  rw [show stringify (Json.obj fs) ++ t = '{' :: (stringifyFields fs ++ ('}' :: t)) by
    rw [show stringify (Json.obj fs) = '{' :: stringifyFields fs ++ ['}'] from rfl]
    simp]
  rw [aux_open '{' '}' (by decide) (by decide) (by decide)]
  rw [scanM '{' '}' (Or.inl ⟨rfl, rfl⟩) fs _ _ _ (by omega)]
  rw [aux_close_stop '{' '}' (by decide) (by decide) (by decide) _ _ _ (by omega)]
  congr 1
  rw [show stringify (Json.obj fs) = '{' :: stringifyFields fs ++ ['}'] from rfl]
  simp
  omega

theorem findJsonEnd_incomplete (w q t' : Str) (c : Char) (fs : List (Str × Json))
    (hw : wsOnly w = true) (h : q ++ (c :: t') = stringify (Json.obj fs)) :
    findJsonEnd (w ++ q) '{' '}' = none := by
  unfold findJsonEnd
  rw [scanNeutral _ _ _ _ _ _ _ (wsChar_neutral hw)]
  rw [show stringify (Json.obj fs) = '{' :: (stringifyFields fs ++ ['}']) by
    rw [show stringify (Json.obj fs) = '{' :: stringifyFields fs ++ ['}'] from rfl,
      List.cons_append]] at h
  cases q with
  | nil => rfl
  | cons a q₂ =>
    have ha : a = '{' ∧ q₂ ++ (c :: t') = stringifyFields fs ++ ['}'] := by simpa using h
    rcases ha with ⟨ha, h2⟩
    subst ha
    rw [aux_open '{' '}' (by decide) (by decide) (by decide)]
    rcases List.append_eq_append_iff.mp h2 with ⟨a', ha1, ha2⟩ | ⟨c', hc1, hc2⟩
    · exact scanPM '{' '}' (Or.inl ⟨rfl, rfl⟩) fs q₂ a' _ _ ha1.symm (by omega)
    · have hcnil : c' = [] := by
        have hlen := congrArg List.length hc2
        simp at hlen
        exact List.eq_nil_of_length_eq_zero (by omega)
      subst hcnil
      rw [List.append_nil] at hc1
      subst hc1
      rw [← List.append_nil (stringifyFields fs),
        scanM '{' '}' (Or.inl ⟨rfl, rfl⟩) fs _ _ _ (by omega)]
      rfl

theorem validMsg_obj {m : Json} (hm : ValidMsg m) : ∃ fs, m = Json.obj fs := by
  rcases hm with ⟨hshape, _⟩
  cases m with
  | obj fs => exact ⟨fs, rfl⟩
  | null => simp [isJsonRpcRequest, isJsonRpcResponse, isJsonRpcMessage, Json.getField] at hshape
  | bool b => simp [isJsonRpcRequest, isJsonRpcResponse, isJsonRpcMessage, Json.getField] at hshape
  | num n => simp [isJsonRpcRequest, isJsonRpcResponse, isJsonRpcMessage, Json.getField] at hshape
  | str s => simp [isJsonRpcRequest, isJsonRpcResponse, isJsonRpcMessage, Json.getField] at hshape
  | arr xs => simp [isJsonRpcRequest, isJsonRpcResponse, isJsonRpcMessage, Json.getField] at hshape

theorem objectStartB_ws_obj {w : Str} (rest : Str) (fs : List (Str × Json))
    (hw : wsOnly w = true) :
    objectStartB (w ++ (stringify (Json.obj fs) ++ rest)) = true ∧
    arrayStartB (w ++ (stringify (Json.obj fs) ++ rest)) = false := by
  unfold objectStartB arrayStartB
  rw [wsOnly_dropWhile _ hw]
  rw [show stringify (Json.obj fs) ++ rest = '{' :: (stringifyFields fs ++ ('}' :: rest)) by
    rw [show stringify (Json.obj fs) = '{' :: stringifyFields fs ++ ['}'] from rfl]
    simp]
  rw [List.dropWhile_cons, if_neg (by simp [isWsChar])]
  exact ⟨rfl, rfl⟩

theorem tryExtract_complete (w t : Str) (m : Json) (hw : wsOnly w = true) (hm : ValidMsg m) :
    tryExtractMessage (w ++ (stringify m ++ t)) = (some (.msg m), t) := by
  obtain ⟨fs, hfs⟩ := validMsg_obj hm
  subst hfs
  obtain ⟨ho, ha⟩ := objectStartB_ws_obj t fs hw
  have hS1 : 1 ≤ (stringify (Json.obj fs)).length :=
    List.length_pos.mpr (stringify_ne_nil _)
  have hend : chosenEnd (w ++ (stringify (Json.obj fs) ++ t)) =
      some (w.length + (stringify (Json.obj fs)).length - 1) := by
    unfold chosenEnd
    rw [ha, if_neg (by simp), findJsonEnd_complete w t fs hw]
  have heq : w.length + (stringify (Json.obj fs)).length - 1 + 1 =
      (w ++ stringify (Json.obj fs)).length := by
    simp
    omega
  have htake : (w ++ (stringify (Json.obj fs) ++ t)).take
      (w.length + (stringify (Json.obj fs)).length - 1 + 1) = w ++ stringify (Json.obj fs) := by
    rw [← List.append_assoc, heq, List.take_left]
  have hdrop : (w ++ (stringify (Json.obj fs) ++ t)).drop
      (w.length + (stringify (Json.obj fs)).length - 1 + 1) = t := by
    rw [← List.append_assoc, heq, List.drop_left]
  unfold tryExtractMessage
  rw [ho, ha]
  simp only [Bool.not_true, Bool.not_false, Bool.false_and, Bool.false_eq_true, if_false]
  unfold extractFrom
  rw [hend]
  dsimp only
  rw [htake, hdrop, parseJson_ws_stringify w fs hw]
  dsimp only
  rcases hm with ⟨hshape, _⟩
  rw [if_pos hshape]

theorem tryExtract_stall (w q t' : Str) (c : Char) (m : Json) (hw : wsOnly w = true)
    (hm : ValidMsg m) (hq : q ≠ []) (h : q ++ (c :: t') = stringify m) :
    tryExtractMessage (w ++ q) = (none, w ++ q) := by
  obtain ⟨fs, hfs⟩ := validMsg_obj hm
  subst hfs
  obtain ⟨a, q₂, haq⟩ : ∃ a q₂, q = a :: q₂ := by
    cases q with
    | nil => exact absurd rfl hq
    | cons a q₂ => exact ⟨a, q₂, rfl⟩
  have hhead : a = '{' := by
    rw [show stringify (Json.obj fs) = '{' :: (stringifyFields fs ++ ['}']) by
      rw [show stringify (Json.obj fs) = '{' :: stringifyFields fs ++ ['}'] from rfl,
        List.cons_append]] at h
    subst haq
    simpa using congrArg List.head? h
  have ho : objectStartB (w ++ q) = true := by
    unfold objectStartB
    rw [wsOnly_dropWhile _ hw, haq, hhead]
    rw [List.dropWhile_cons, if_neg (by simp [isWsChar])]
    rfl
  have ha2 : arrayStartB (w ++ q) = false := by
    unfold arrayStartB
    rw [wsOnly_dropWhile _ hw, haq, hhead]
    rw [List.dropWhile_cons, if_neg (by simp [isWsChar])]
    rfl
  have hend : chosenEnd (w ++ q) = none := by
    unfold chosenEnd
    rw [ha2, if_neg (by simp), findJsonEnd_incomplete w q t' c fs hw h]
  unfold tryExtractMessage
  rw [ho, ha2]
  simp only [Bool.not_true, Bool.not_false, Bool.false_and, Bool.false_eq_true, if_false]
  unfold extractFrom
  rw [hend]

theorem tryExtract_ws {b : Str} (hb : wsOnly b = true) :
    tryExtractMessage b = (none, []) := by
  have hdw : b.dropWhile isWsChar = [] := by
    rw [List.dropWhile_eq_nil_iff]
    intro c hc
    simp only [wsOnly, List.all_eq_true] at hb
    exact hb c hc
  have hno : ∀ c ∈ b, ¬(c = '{') := by
    intro c hc
    obtain ⟨h1, _, _, _⟩ := wsChar_neutral hb c hc
    exact h1
  have hna : ∀ c ∈ b, ¬(c = '[') := by
    intro c hc
    have hcw : isWsChar c = true := by
      simp only [wsOnly, List.all_eq_true] at hb
      exact hb c hc
    simp only [isWsChar, Bool.or_eq_true, decide_eq_true_eq] at hcw
    rcases hcw with ((h | h) | h) | h <;> subst h <;> decide
  have hfo : b.findIdx? (fun c => c = '{') = none := by
    rw [List.findIdx?_eq_none_iff]
    intro c hc
    simp [hno c hc]
  have hfa : b.findIdx? (fun c => c = '[') = none := by
    rw [List.findIdx?_eq_none_iff]
    intro c hc
    simp [hna c hc]
  unfold tryExtractMessage
  have hob : objectStartB b = false := by
    unfold objectStartB
    rw [hdw]
  have hab : arrayStartB b = false := by
    unfold arrayStartB
    rw [hdw]
  rw [hob, hab, hfo, hfa]
  simp

theorem wsOnly_append (a b : Str) : wsOnly (a ++ b) = (wsOnly a && wsOnly b) := by
  simp [wsOnly, List.all_append]

theorem flatSer_cons (m : Json) (ms : List Json) :
    flatSer (m :: ms) = stringify m ++ ('\n' :: flatSer ms) := by
  simp [flatSer, serializeMessage]

theorem parseLoop_spec (rest : List Json) : ∀ (q w future : Str),
    (∀ m ∈ rest, ValidMsg m) → wsOnly w = true → q ++ future = flatSer rest →
    ∃ done rest' w' p' w₂,
      rest = done ++ rest' ∧
      parseLoop (w ++ q) = (done, w' ++ p') ∧
      wsOnly w' = true ∧ PartialBuf p' rest' ∧
      wsOnly w₂ = true ∧ p' ++ future = w₂ ++ flatSer rest' := by
  induction rest with
  | nil =>
    intro q w future hvalid hw hstream
    have h0 : q = [] ∧ future = [] := by
      simpa [flatSer] using hstream
    obtain ⟨hq, hf⟩ := h0
    subst hq
    subst hf
    rw [List.append_nil]
    exact ⟨[], [], [], [], [], rfl, parseLoop_none (tryExtract_ws hw), rfl, Or.inl rfl,
      rfl, rfl⟩
  | cons m ms ih =>
    intro q w future hvalid hw hstream
    have hm : ValidMsg m := hvalid m (List.mem_cons_self m ms)
    by_cases hq0 : q = []
    · subst hq0
      rw [List.append_nil]
      exact ⟨[], m :: ms, [], [], [], rfl, parseLoop_none (tryExtract_ws hw), rfl,
        Or.inl rfl, rfl, by simpa using hstream⟩
    · rw [flatSer_cons] at hstream
      have key : ∀ c' : Str, q = stringify m ++ c' →
          '\n' :: flatSer ms = c' ++ future →
          ∃ done rest' w' p' w₂,
            m :: ms = done ++ rest' ∧
            parseLoop (w ++ q) = (done, w' ++ p') ∧
            wsOnly w' = true ∧ PartialBuf p' rest' ∧
            wsOnly w₂ = true ∧ p' ++ future = w₂ ++ flatSer rest' := by
        intro c' hc1 hc2
        cases c' with
        | nil =>
          refine ⟨[m], ms, [], [], ['\n'], rfl, ?_, rfl, Or.inl rfl, by decide, ?_⟩
          · rw [hc1, parseLoop_some (tryExtract_complete w [] m hw hm),
              parseLoop_none (@tryExtract_ws [] rfl)]
            rfl
          · exact hc2.symm
        | cons ch q' =>
          rw [List.cons_append] at hc2
          injection hc2 with hch hrest
          obtain ⟨done, rest', w', p', w₂, hsplit, hloop, hw', hpart, hw₂, hinv⟩ :=
            ih q' ['\n'] future (fun x hx => hvalid x (List.mem_cons_of_mem m hx))
              (by decide) hrest.symm
          have hloop' : parseLoop ('\n' :: q') = (done, w' ++ p') := hloop
          refine ⟨m :: done, rest', w', p', w₂, by rw [hsplit]; rfl, ?_, hw', hpart,
            hw₂, hinv⟩
          rw [hc1, ← hch, parseLoop_some (tryExtract_complete w ('\n' :: q') m hw hm),
            hloop']
          rfl
      rcases List.append_eq_append_iff.mp hstream with ⟨a', ha1, ha2⟩ | ⟨c', hc1, hc2⟩
      · cases a' with
        | nil =>
          refine key [] ?_ ?_
          · rw [List.append_nil] at ha1
            rw [List.append_nil]
            exact ha1.symm
          · simpa using ha2.symm
        | cons ch t' =>
          refine ⟨[], m :: ms, w, q, [], rfl,
            parseLoop_none (tryExtract_stall w q t' ch m hw hm hq0 ha1.symm), hw,
            Or.inr ⟨m, ms, ch, t', rfl, ha1.symm⟩, rfl, ?_⟩
          rw [List.nil_append, flatSer_cons]
          exact hstream
      · exact key c' hc1 hc2

theorem parseLoop_spec_ws (rest : List Json) (q w w₀ future : Str)
    (hvalid : ∀ m ∈ rest, ValidMsg m) (hw : wsOnly w = true) (hw₀ : wsOnly w₀ = true)
    (hstream : q ++ future = w₀ ++ flatSer rest) :
    ∃ done rest' w' p' w₂,
      rest = done ++ rest' ∧
      parseLoop (w ++ q) = (done, w' ++ p') ∧
      wsOnly w' = true ∧ PartialBuf p' rest' ∧
      wsOnly w₂ = true ∧ p' ++ future = w₂ ++ flatSer rest' := by
  rcases List.append_eq_append_iff.mp hstream with ⟨a', ha1, ha2⟩ | ⟨c', hc1, hc2⟩
  · have hqa : wsOnly q = true ∧ wsOnly a' = true := by
      have h := hw₀
      rw [ha1, wsOnly_append, Bool.and_eq_true] at h
      exact h
    have hwq : wsOnly (w ++ q) = true := by
      rw [wsOnly_append, hw, hqa.1]
      rfl
    exact ⟨[], rest, [], [], a', rfl, parseLoop_none (tryExtract_ws hwq), rfl,
      Or.inl rfl, hqa.2, ha2⟩
  · have hww : wsOnly (w ++ w₀) = true := by
      rw [wsOnly_append, hw, hw₀]
      rfl
    obtain ⟨done, rest', w', p', w₂, hsplit, hloop, hw', hpart, hw₂, hinv⟩ :=
      parseLoop_spec rest c' (w ++ w₀) future hvalid hww hc2.symm
    refine ⟨done, rest', w', p', w₂, hsplit, ?_, hw', hpart, hw₂, hinv⟩
    rw [hc1, ← List.append_assoc]
    exact hloop

theorem feedChunks_spec (chunks : List Str) : ∀ (rest : List Json) (w p w₂ : Str),
    (∀ m ∈ rest, ValidMsg m) → wsOnly w = true → PartialBuf p rest → wsOnly w₂ = true →
    p ++ chunks.flatten = w₂ ++ flatSer rest →
    (feedChunks (w ++ p) chunks).1 = rest := by
  induction chunks with
  | nil =>
    intro rest w p w₂ hvalid hw hpart hw₂ hinv
    have hrest : rest = [] := by
      rcases hpart with hp | ⟨m, ms, c, t', hr, hpre⟩
      · subst hp
        rcases rest with _ | ⟨m, ms⟩
        · rfl
        · exfalso
          rw [flatSer_cons] at hinv
          have hlen := congrArg List.length hinv
          simp at hlen
          have hpos : 0 < (stringify m).length := List.length_pos.mpr (stringify_ne_nil m)
          omega
      · subst hr
        exfalso
        rw [flatSer_cons] at hinv
        have hlen1 := congrArg List.length hinv
        have hlen2 := congrArg List.length hpre
        simp at hlen1 hlen2
        omega
    subst hrest
    rfl
  | cons c cs ih =>
    intro rest w p w₂ hvalid hw hpart hw₂ hinv
    have hstream : (p ++ c) ++ cs.flatten = w₂ ++ flatSer rest := by
      rw [List.append_assoc]
      exact hinv
    obtain ⟨done, rest', w', p', w₂', hsplit, hloop, hw', hpart', hw₂', hinv'⟩ :=
      parseLoop_spec_ws rest (p ++ c) w w₂ cs.flatten hvalid hw hw₂ hstream
    have hvalid' : ∀ x ∈ rest', ValidMsg x := by
      intro x hx
      refine hvalid x ?_
      rw [hsplit]
      exact List.mem_append_right done hx
    have hstep := ih rest' w' p' w₂' hvalid' hw' hpart' hw₂' hinv'
    have hparse : MessageParser.parse (w ++ p) c = (done, w' ++ p') := by
      unfold MessageParser.parse
      rw [List.append_assoc]
      exact hloop
    show (feedChunks (w ++ p) (c :: cs)).1 = rest
    rw [hsplit]
    simp only [feedChunks]
    rw [hparse]
    dsimp only
    rw [hstep]

/-- C1: chunk-boundary invariance of the framer — for every sequence of
wire values shaped as Requests or Responses (within the clean fragment on
which the serializer model is byte-exact), serializing each with
`serializeMessage`, concatenating, splitting the stream at arbitrary
boundaries into chunks, and feeding the chunks in order through
`MessageParser.parse` yields exactly the original message sequence, in the
original order. -/
theorem chunk_boundary_invariance (ms : List Json) (chunks : List Str)
    (hvalid : ∀ m ∈ ms, ValidMsg m) (hsplit : chunks.flatten = flatSer ms) :
    (feedChunks [] chunks).1 = ms :=
  feedChunks_spec chunks ms [] [] [] hvalid rfl (Or.inl rfl) rfl hsplit

theorem chunk_boundary_invariance_witness :
    ValidMsg cbiMsg ∧ cbiChunks.flatten = flatSer [cbiMsg] ∧
    (feedChunks [] cbiChunks).1 = [cbiMsg] := by
  refine ⟨⟨rfl, rfl⟩, rfl, chunk_boundary_invariance [cbiMsg] cbiChunks ?_ rfl⟩
  intro m hm
  have hm' : m = cbiMsg := by simpa using hm
  subst hm'
  exact ⟨rfl, rfl⟩
